import Mathlib

/-!
# strumap: struct-to-map conversion

A shallow embedding of `strumap.go` (package `strumap`) and of the part of Go's
`reflect` package the code calls, followed by theorems about `convert`,
`Convert`, `ConvertSnakeCase` and `convCase`.

Modelling decisions:

* Go values are finite trees (`Value`); a pointer is either a typed nil or owns
  its pointee, so the modelled pointer graphs are acyclic.
* A `reflect` call that panics in Go returns `none` here; the closure `iter`
  takes its recursion partner `recFn` as an argument exactly as in the source,
  and the knot `iter(v, iter)` is tied by `iterN` with a recursion budget.
* The Go map under construction is an association list with unique keys;
  `Map.set` is the assignment `a[key] = x`.
* Strings are sequences of Unicode code points: field names are Go identifiers
  and hence valid UTF-8, so `range` over the string yields exactly its runes.
* A value of the result map is either a boxed Go value (`Out.val`) or a sub-map
  made by the conversion (`Out.sub`). The Go result carries no such mark: a map
  of type `Map` that a field passes through looks like a converted sub-map. The
  statements about all keys (`Out.keysAll`, `Out.renameKeys`) therefore look
  into both.
-/

namespace Strumap

/-! ## Go values -/

/-- Descriptor of a Go type, carried by typed nil values. -/
inductive GoType where
  | bool
  | int
  | string
  | iface
  | slice (elem : GoType)
  | map (key elem : GoType)
  | ptr (elem : GoType)
  | struct (fields : List (String × GoType))

/-- The kinds of `reflect.Kind` that the modelled values can have. -/
inductive Kind where
  | Invalid
  | Bool
  | Int
  | String
  | Slice
  | Map
  | Ptr
  | Interface
  | Struct
  deriving DecidableEq, Repr

/-- One declared field of a struct value: its declared name, whether the name
is exported (`PkgPath == ""` in `reflect.StructField`), and what it holds. -/
structure Field (α : Type) where
  name : String
  exported : Bool
  value : α

/-- A Go value together with its static type, as far as `reflect` can tell
them apart. `nilIface` and `iface` are values of interface type, as found in
a struct field, a slice element or behind a pointer. -/
inductive Value where
  | bool (b : Bool)
  | int (n : Int)
  | string (s : String)
  | nilSlice (elem : GoType)
  | slice (elem : GoType) (xs : List Value)
  | nilMap (key elem : GoType)
  | map (key elem : GoType) (entries : List (Value × Value))
  | nilPtr (elem : GoType)
  | ptr (pointee : Value)
  | nilIface
  | iface (dyn : Value)
  | struct (fields : List (Field Value))

/-- The Go type `interface{}`: `none` is the untyped nil, `some x` holds the
dynamic value `x`. -/
abbrev Any := Option Value

/-- A value of the result map: either a Go value boxed as `interface{}`, or a
sub-map made by the conversion itself (Go type `Map`). -/
inductive Out where
  | val (a : Any)
  | sub (m : List (String × Out))

/-- The Go type `Map`, `map[string]interface{}`, for a non-nil map. -/
abbrev Map := List (String × Out)

/-- The assignment `a[key] = x`: overwrite the entry of `key` when there is
one, add an entry otherwise. -/
def Map.set : Map → String → Out → Map
  | [], key, x => [(key, x)]
  | (k, y) :: rest, key, x =>
    if k = key then (k, x) :: rest else (k, y) :: Map.set rest key x

/-- The lookup `a[key]` with its presence flag. -/
def Map.get : Map → String → Option Out
  | [], _ => none
  | (k, y) :: rest, key => if k = key then some y else Map.get rest key

/-- The keys of a map. -/
def Map.keys (a : Map) : List String := a.map Prod.fst

/-! ## The part of `reflect` used by the code -/

/-- A `reflect.Value`: `val = none` is the zero Value; `flagRO` is set when the
value was reached through an unexported field. -/
structure RValue where
  val : Option Value
  flagRO : Bool

/-- The kind of a Go value. -/
def Value.kind : Value → Kind
  | .bool _ => .Bool
  | .int _ => .Int
  | .string _ => .String
  | .nilSlice _ => .Slice
  | .slice _ _ => .Slice
  | .nilMap _ _ => .Map
  | .map _ _ _ => .Map
  | .nilPtr _ => .Ptr
  | .ptr _ => .Ptr
  | .nilIface => .Interface
  | .iface _ => .Interface
  | .struct _ => .Struct

/-- The function `reflect.ValueOf`: the zero Value for a nil interface. -/
def ValueOf (s : Any) : RValue := ⟨s, false⟩

/-- The method `Value.Kind`; the zero Value has kind `Invalid`. -/
def RValue.Kind (v : RValue) : Kind :=
  match v.val with
  | none => .Invalid
  | some x => x.kind

/-- The method `Value.NumField`; panics unless the kind is `Struct`. -/
def RValue.NumField (v : RValue) : Option Nat :=
  match v.val with
  | some (.struct fs) => some fs.length
  | _ => none

/-- The expression `v.Type().Field(i).Name`; panics unless `v` is a struct with
more than `i` fields. -/
def RValue.FieldName (v : RValue) (i : Nat) : Option String :=
  match v.val with
  | some (.struct fs) => (fs.get? i).map Field.name
  | _ => none

/-- The method `Value.FieldByName`: the first declared field of that name, the
zero Value when there is none; panics unless the kind is `Struct`. The result
is read-only when `v` is or when the field is unexported. -/
def RValue.FieldByName (v : RValue) (name : String) : Option RValue :=
  match v.val with
  | some (.struct fs) =>
    match fs.find? (fun f => f.name = name) with
    | some f => some ⟨some f.value, v.flagRO || !f.exported⟩
    | none => some ⟨none, false⟩
  | _ => none

/-- The method `Value.CanInterface`; panics on the zero Value. -/
def RValue.CanInterface (v : RValue) : Option Bool :=
  match v.val with
  | none => none
  | some _ => some (!v.flagRO)

/-- The method `Value.Elem`: the pointee of a pointer or the dynamic value of
an interface, the zero Value when that is nil; panics for any other kind. -/
def RValue.Elem (v : RValue) : Option RValue :=
  match v.val with
  | some (.ptr p) => some ⟨some p, v.flagRO⟩
  | some (.nilPtr _) => some ⟨none, false⟩
  | some (.iface d) => some ⟨some d, v.flagRO⟩
  | some .nilIface => some ⟨none, false⟩
  | _ => none

/-- The method `Value.IsNil`; panics for kinds that have no nil. -/
def RValue.IsNil (v : RValue) : Option Bool :=
  match v.val with
  | some (.nilPtr _) => some true
  | some (.ptr _) => some false
  | some (.nilSlice _) => some true
  | some (.slice _ _) => some false
  | some (.nilMap _ _) => some true
  | some (.map _ _ _) => some false
  | some .nilIface => some true
  | some (.iface _) => some false
  | _ => none

/-- The method `Value.Interface`: the value boxed as `interface{}`; a value of
interface kind yields what it holds. Panics on the zero Value and on a
read-only value. -/
def RValue.Interface (v : RValue) : Option Any :=
  if v.flagRO then none else
  match v.val with
  | none => none
  | some .nilIface => some none
  | some (.iface d) => some (some d)
  | some x => some (some x)

/-! ## strumap.go -/

/-- The type `wordCase` with its two constants. -/
inductive wordCase where
  | snakeCase
  | camelCase
  deriving DecidableEq, Repr

/-- The two error values of the package. -/
inductive Error where
  | ErrEmptyStruct
  | ErrNotStruct
  deriving DecidableEq, Repr

/-- One round of the loop of `convCase` over the rune `c`, with the buffer
contents `buf`. -/
def convCaseStep (buf : List Char) (c : Char) : List Char :=
  let isCapitalLetter : Bool := decide ('A' ≤ c) && decide (c ≤ 'Z')
  if isCapitalLetter then
    let buf1 := if buf.length > 0 then buf ++ ['_'] else buf
    let lowCaseLetter := Char.ofNat (c.toNat - 'A'.toNat + 'a'.toNat)
    buf1 ++ [lowCaseLetter]
  else
    buf ++ [c]

/-- The function `convCase`. -/
def convCase (i : String) (c : wordCase) : String :=
  if c = wordCase.camelCase then
    i
  else
    String.mk (i.data.foldl convCaseStep [])

/-- The type `iterFn`, with the closure argument left out: what `recFn(x, recFn)`
returns for `x`, or `none` when that call does not return. -/
abbrev iterFn := RValue → Option Map

/-- One round of the loop of `iter`: field number `i` of `v`, with the map `a`
built so far. -/
def iterStep (c : wordCase) (v : RValue) (recFn : iterFn) (a : Map) (i : Nat) :
    Option Map := do
  let fieldName ← v.FieldName i
  let key := convCase fieldName c
  let value ← v.FieldByName fieldName
  if !(← value.CanInterface) then
    pure a
  else
    match value.Kind with
    | .Struct => do
      let m ← recFn value
      pure (Map.set a key (.sub m))
    | .Ptr => do
      let e ← value.Elem
      if e.Kind = .Struct then do
        let m ← recFn e
        pure (Map.set a key (.sub m))
      else if (← value.IsNil) then do
        let x ← value.Interface
        pure (Map.set a key (.val x))
      else do
        let x ← e.Interface
        pure (Map.set a key (.val x))
    | _ => do
      let x ← value.Interface
      pure (Map.set a key (.val x))

/-- The closure `iter` of `convert`, called as `iter(v, recFn)`. -/
def iter (c : wordCase) (v : RValue) (recFn : iterFn) : Option Map := do
  let n ← v.NumField
  (List.range n).foldlM (iterStep c v recFn) []

/-- The call `iter(v, iter)` with a budget of nested calls: `none` when the
budget is used up or a `reflect` call panics. -/
def iterN (c : wordCase) : Nat → iterFn
  | 0 => fun _ => none
  | n + 1 => fun v => iter c v (iterN c n)

mutual
/-- An upper bound of the number of nested calls of `iter` that a value needs. -/
def nesting : Value → Nat
  | .struct fs => nestingFields fs + 1
  | .ptr p => nesting p
  | _ => 0
/-- The largest `nesting` among the values of a field list. -/
def nestingFields : List (Field Value) → Nat
  | [] => 0
  | f :: rest => max (nesting f.value) (nestingFields rest)
end

/-- What `convert` hands back: the map (`none` is the nil map) and the error
(`none` is the nil error). -/
abbrev Ret := Option Map × Option Error

/-- The function `convert` with an explicit budget of nested calls of `iter`;
`none` when the call does not return. -/
def convertN (fuel : Nat) (s : Any) (c : wordCase) : Option Ret :=
  let v := ValueOf s
  if v.Kind ≠ Kind.Struct then
    some (none, some Error.ErrNotStruct)
  else do
    let fieldCount ← v.NumField
    if fieldCount = 0 then
      some (none, some Error.ErrEmptyStruct)
    else do
      let m ← iterN c fuel v
      some (some m, none)

/-- The nesting bound of the argument of `convert`. -/
def anyNesting : Any → Nat
  | none => 0
  | some x => nesting x

/-- The function `convert`: the budget is the nesting bound of the input,
which is always enough (`convertN_stable`). -/
def convert (s : Any) (c : wordCase) : Option Ret :=
  convertN (anyNesting s) s c

/-- The function `Convert`. -/
def Convert (s : Any) : Option Ret := convert s wordCase.camelCase

/-- The function `ConvertSnakeCase`. -/
def ConvertSnakeCase (s : Any) : Option Ret := convert s wordCase.snakeCase

/-! ## Closed form of the conversion

The functions below describe the result of `iter` without the budget and
without the panics of `reflect`; `iterN_struct` proves that the code computes
them. -/

/-- One round of the loop over the field named `name`, on the table `tbl` of
the fields with their stored values: the first field of that name decides
whether an entry is written and which. -/
def assembleStep (c : wordCase) (tbl : List (Field Out)) (a : Map) (name : String) : Map :=
  match tbl.find? (fun g => g.name = name) with
  | some g => if g.exported then Map.set a (convCase name c) g.value else a
  | none => a

/-- The map built by the loop of `iter` from the table of the fields. -/
def assemble (c : wordCase) (tbl : List (Field Out)) : Map :=
  (tbl.map Field.name).foldl (assembleStep c tbl) []

mutual
/-- What the loop body stores under the key of an accessible field holding the
value `x`. -/
def stored (c : wordCase) : Value → Out
  | .struct fs => .sub (assemble c (storedFields c fs))
  | .ptr (.struct fs) => .sub (assemble c (storedFields c fs))
  | .ptr .nilIface => .val none
  | .ptr (.iface d) => .val (some d)
  | .ptr p => .val (some p)
  | .nilIface => .val none
  | .iface d => .val (some d)
  | x => .val (some x)
/-- The fields of a struct with `stored` applied to what each one holds. -/
def storedFields (c : wordCase) : List (Field Value) → List (Field Out)
  | [] => []
  | f :: rest => ⟨f.name, f.exported, stored c f.value⟩ :: storedFields c rest
end

/-! ## Vocabulary of the statements -/

/-- Go's rule for two fields declared in one struct type: non-blank names are
unique, and the blank name, which may repeat, is unexported. So two fields of
the same name are both unexported. -/
def declaredOnce {α : Type} (f g : Field α) : Prop :=
  f.name = g.name → f.exported = false ∧ g.exported = false

instance {α : Type} (f g : Field α) : Decidable (declaredOnce f g) :=
  inferInstanceAs (Decidable (f.name = g.name → f.exported = false ∧ g.exported = false))

/-- The field list of a struct type that Go accepts. -/
def wellFormed {α : Type} (fs : List (Field α)) : Prop :=
  fs.Pairwise declaredOnce

instance {α : Type} (fs : List (Field α)) : Decidable (wellFormed fs) :=
  inferInstanceAs (Decidable (fs.Pairwise declaredOnce))

/-- The exported fields of a field list, in declaration order. -/
def exportedFields {α : Type} (fs : List (Field α)) : List (Field α) :=
  fs.filter (fun f => f.exported)

/-- The map after the assignments `a[e.1] = e.2` for the entries `e` of `es`, in
order. -/
def Map.setAll (a : Map) (es : List (String × Out)) : Map :=
  es.foldl (fun b e => Map.set b e.1 e.2) a

/-- The assignments that the loop of `iter` makes for a well-formed field list:
one for each exported field, in declaration order. -/
def entries (c : wordCase) (fs : List (Field Value)) : List (String × Out) :=
  (exportedFields fs).map (fun f => (convCase f.name c, stored c f.value))

/-- The value found by following a path of keys through nested sub-maps. -/
def Out.atPath : Out → List String → Option Out
  | x, [] => some x
  | .sub m, k :: ks =>
    match Map.get m k with
    | some y => Out.atPath y ks
    | none => none
  | .val _, _ :: _ => none

/-- A string without ASCII capital letter. -/
def noCapital (s : String) : Bool :=
  s.data.all (fun ch => !(decide ('A' ≤ ch) && decide (ch ≤ 'Z')))

/-- A key of a Go map, when it is a string, satisfies `p`. -/
def Value.keyOk (p : String → Bool) : Value → Bool
  | .string s => p s
  | _ => true

mutual
/-- Every string key of the Go map `x`, and of the maps it holds as values, at
every depth, satisfies `p`. -/
def Value.keysAll (p : String → Bool) : Value → Bool
  | .map _ _ es => Value.entriesKeysAll p es
  | .iface d => Value.keysAll p d
  | _ => true
/-- Every string key of the entries of a Go map, at every depth, satisfies `p`. -/
def Value.entriesKeysAll (p : String → Bool) : List (Value × Value) → Bool
  | [] => true
  | (k, v) :: rest => Value.keyOk p k && Value.keysAll p v && Value.entriesKeysAll p rest
end

mutual
/-- Every key of the value, at every depth of nested maps, satisfies `p`. A
nested map is a sub-map made by the conversion or a Go map that a field passed
through: the result of the Go code does not tell the two apart. -/
def Out.keysAll (p : String → Bool) : Out → Bool
  | .val (some (.map _ _ es)) => Value.entriesKeysAll p es
  | .val _ => true
  | .sub m => Map.keysAll p m
/-- Every key of the map, at every depth of nested maps, satisfies `p`. -/
def Map.keysAll (p : String → Bool) : List (String × Out) → Bool
  | [] => true
  | (k, x) :: rest => p k && Out.keysAll p x && Map.keysAll p rest
end

/-- Every string key of the boxed value `x`, when it is a Go map, and of the
maps it holds as values, at every depth, satisfies `p`. -/
def Value.boxedKeysAll (p : String → Bool) : Value → Bool
  | .map _ _ es => Value.entriesKeysAll p es
  | _ => true

mutual
/-- Every Go map that an exported field reached by the conversion passes
through (a map held by the field directly, through an interface or through a
pointer) has only string keys that satisfy `p`, at every depth. -/
def passesMaps (p : String → Bool) : Value → Bool
  | .struct fs => passesMapsFields p fs
  | .ptr (.struct fs) => passesMapsFields p fs
  | .ptr .nilIface => true
  | .ptr (.iface d) => Value.boxedKeysAll p d
  | .ptr q => Value.boxedKeysAll p q
  | .nilIface => true
  | .iface d => Value.boxedKeysAll p d
  | x => Value.boxedKeysAll p x
/-- Every exported field of the list holds a value that `passesMaps`. -/
def passesMapsFields (p : String → Bool) : List (Field Value) → Bool
  | [] => true
  | f :: rest => (!f.exported || passesMaps p f.value) && passesMapsFields p rest
end

/-- The field path `path` leads from the struct with the fields `fs` to the
value `x`: every step names an exported field of a well-formed field list, no
field declared after it in the same struct is exported and has the same key
under the case mode `c`, and every step but the last holds a struct or a
non-nil pointer to a struct. -/
inductive Reaches (c : wordCase) : List (Field Value) → List String → Value → Prop where
  | here (pre : List (Field Value)) (f : Field Value) (post : List (Field Value)) :
      wellFormed (pre ++ f :: post) → f.exported = true →
      (∀ g ∈ post, g.exported = true → convCase g.name c ≠ convCase f.name c) →
      Reaches c (pre ++ f :: post) [f.name] f.value
  | into (pre : List (Field Value)) (f : Field Value) (post : List (Field Value))
      (gs : List (Field Value)) (path : List String) (x : Value) :
      wellFormed (pre ++ f :: post) → f.exported = true →
      (∀ g ∈ post, g.exported = true → convCase g.name c ≠ convCase f.name c) →
      (f.value = .struct gs ∨ f.value = .ptr (.struct gs)) →
      Reaches c gs path x →
      Reaches c (pre ++ f :: post) (f.name :: path) x

/-- Reference definition of the snake-case transform, after the words of the
specification: the concatenation, over the characters in order (`pos` is the
position of the first character of the list), of the lowercase letter for an
ASCII capital letter at the first position, of `_` followed by the lowercase
letter for an ASCII capital letter at any later position, and of the character
itself for any other character. -/
def snakeCaseSpec (pos : Nat) : List Char → List Char
  | [] => []
  | ch :: rest =>
    (if ch.isUpper then (if pos = 0 then [ch.toLower] else ['_', ch.toLower]) else [ch])
      ++ snakeCaseSpec (pos + 1) rest

/-- The number of ASCII capital letters at the positions after the first. -/
def capitalsAfterFirst (s : String) : Nat :=
  (s.data.tail.filter (fun ch => decide ('A' ≤ ch) && decide (ch ≤ 'Z'))).length

/-- A string whose first character is an ASCII capital letter. -/
def startsWithCapital (s : String) : Bool :=
  match s.data with
  | [] => false
  | ch :: _ => decide ('A' ≤ ch) && decide (ch ≤ 'Z')

/-- A key of a Go map with `r` applied to it when it is a string. -/
def Value.renameKey (r : String → String) : Value → Value
  | .string s => .string (r s)
  | k => k

mutual
/-- The Go map `x` with every string key, at every depth of maps held as
values, replaced by its image under `r`; any other value is left as it is. -/
def Value.renameKeys (r : String → String) : Value → Value
  | .map k e es => .map k e (Value.renameEntries r es)
  | .iface d => .iface (Value.renameKeys r d)
  | x => x
/-- The entries of a Go map with every string key, at every depth, replaced by
its image under `r`. -/
def Value.renameEntries (r : String → String) : List (Value × Value) → List (Value × Value)
  | [] => []
  | (k, v) :: rest =>
    (Value.renameKey r k, Value.renameKeys r v) :: Value.renameEntries r rest
end

mutual
/-- The value with every key, at every depth of nested maps, replaced by its
image under `r`; values that are not maps are left as they are. A nested map is
a sub-map made by the conversion or a Go map that a field passed through: the
result of the Go code does not tell the two apart. -/
def Out.renameKeys (r : String → String) : Out → Out
  | .val (some (.map k e es)) => .val (some (.map k e (Value.renameEntries r es)))
  | .val a => .val a
  | .sub m => .sub (Map.renameKeys r m)
/-- The map with every key, at every depth of nested maps, replaced by its
image under `r`. -/
def Map.renameKeys (r : String → String) : List (String × Out) → List (String × Out)
  | [] => []
  | (k, x) :: rest => (r k, Out.renameKeys r x) :: Map.renameKeys r rest
end

/-- The snake-case transform is injective on the names of the exported fields
of the list. -/
def siblingsInjective (fs : List (Field Value)) : Bool :=
  (exportedFields fs).all (fun f => (exportedFields fs).all (fun g =>
    decide (convCase f.name wordCase.snakeCase = convCase g.name wordCase.snakeCase
      → f.name = g.name)))

mutual
/-- At every nesting level that the conversion enters (the struct itself, and
the structs and pointed-to structs held by exported fields), the snake-case
transform is injective on the names of the sibling exported fields. -/
def snakeInjective : Value → Bool
  | .struct fs => siblingsInjective fs && snakeInjectiveFields fs
  | .ptr (.struct fs) => siblingsInjective fs && snakeInjectiveFields fs
  | _ => true
/-- Every exported field of the list holds a value that is `snakeInjective`. -/
def snakeInjectiveFields : List (Field Value) → Bool
  | [] => true
  | f :: rest => (!f.exported || snakeInjective f.value) && snakeInjectiveFields rest
end

/-- The result of `convert` with the keys of its map renamed by `r`. -/
def renameRet (r : String → String) (ret : Ret) : Ret :=
  (ret.1.map (Map.renameKeys r), ret.2)

/-! ## The code computes the closed form -/

theorem storedFields_find (c : wordCase) (nm : String) (fs : List (Field Value)) :
    (storedFields c fs).find? (fun g => g.name = nm)
      = (fs.find? (fun f => f.name = nm)).map
          (fun f => (⟨f.name, f.exported, stored c f.value⟩ : Field Out)) := by
  induction fs with
  | nil => simp [storedFields]
  | cons f rest ih =>
    by_cases h : f.name = nm
    · simp [storedFields, List.find?_cons, h]
    · simp [storedFields, List.find?_cons, h, ih]

theorem storedFields_names (c : wordCase) (fs : List (Field Value)) :
    (storedFields c fs).map Field.name = fs.map Field.name := by
  induction fs with
  | nil => simp [storedFields]
  | cons f rest ih => simp [storedFields, ih]

theorem nesting_le_of_mem (fs : List (Field Value)) (f : Field Value) (h : f ∈ fs) :
    nesting f.value ≤ nestingFields fs := by
  induction fs with
  | nil => cases h
  | cons g rest ih =>
    rcases List.mem_cons.mp h with h1 | h1
    · subst h1
      simp [nestingFields]
    · have := ih h1
      simp only [nestingFields]
      omega

theorem range_foldlM_get {α β : Type} (g : β → α → Option β) (l : List α) (init : β) :
    (List.range l.length).foldlM (fun b i => (l.get? i).bind (g b)) init
      = l.foldlM g init := by
  induction l generalizing init with
  | nil => simp
  | cons x rest ih =>
    rw [List.length_cons, List.range_succ_eq_map, List.foldlM_cons, List.foldlM_cons]
    simp only [List.get?_cons_zero, Option.some_bind, List.foldlM_map,
      List.get?_cons_succ, Nat.succ_eq_add_one]
    congr 1
    funext b
    exact ih b

theorem iterStep_struct (c : wordCase) (n : Nat) (recFn : iterFn) (fs : List (Field Value))
    (hrec : ∀ gs, nestingFields gs + 1 ≤ n →
      recFn ⟨some (.struct gs), false⟩ = some (assemble c (storedFields c gs)))
    (hn : nestingFields fs ≤ n) (a : Map) (i : Nat) (f : Field Value)
    (hi : fs.get? i = some f) :
    iterStep c ⟨some (.struct fs), false⟩ recFn a i
      = some (assembleStep c (storedFields c fs) a f.name) := by
  have hmem : f ∈ fs := List.get?_mem hi
  obtain ⟨g, hg⟩ : ∃ g, fs.find? (fun x => x.name = f.name) = some g := by
    cases h : fs.find? (fun x => x.name = f.name) with
    | none =>
      have := List.find?_eq_none.mp h f hmem
      simp at this
    | some g => exact ⟨g, rfl⟩
  have hgn := nesting_le_of_mem fs g (List.mem_of_find?_eq_some hg)
  unfold iterStep assembleStep
  rw [storedFields_find, hg]
  simp only [RValue.FieldName, hi, RValue.FieldByName, hg, Option.map_some', Option.bind_eq_bind,
    Option.some_bind, Bool.false_or]
  rcases g with ⟨gn, ge, gv⟩
  cases ge
  · simp [RValue.CanInterface]
  · cases gv with
    | struct gs =>
      have h1 := hrec gs (by simp only [nesting] at hgn; omega)
      simp [RValue.CanInterface, RValue.Kind, Value.kind, stored, h1]
    | ptr p =>
      cases p with
      | struct gs =>
        have h1 := hrec gs (by simp only [nesting] at hgn; omega)
        simp [RValue.CanInterface, RValue.Kind, Value.kind, stored, h1, RValue.Elem]
      | _ =>
        simp [RValue.CanInterface, RValue.Kind, Value.kind, stored, RValue.Elem,
          RValue.IsNil, RValue.Interface]
    | _ =>
      simp [RValue.CanInterface, RValue.Kind, Value.kind, stored, RValue.Elem,
        RValue.IsNil, RValue.Interface]

theorem foldlM_some {α β : Type} (h : β → α → β) (l : List α) (init : β) :
    l.foldlM (fun b x => some (h b x)) init = some (l.foldl h init) := by
  induction l generalizing init with
  | nil => rfl
  | cons x rest ih => simp [List.foldlM_cons, ih]

theorem iter_struct (c : wordCase) (n : Nat) (recFn : iterFn) (fs : List (Field Value))
    (hrec : ∀ gs, nestingFields gs + 1 ≤ n →
      recFn ⟨some (.struct gs), false⟩ = some (assemble c (storedFields c gs)))
    (hn : nestingFields fs ≤ n) :
    iter c ⟨some (.struct fs), false⟩ recFn = some (assemble c (storedFields c fs)) := by
  have hstep : iterStep c ⟨some (.struct fs), false⟩ recFn
      = fun b i => (fs.get? i).bind
          (fun f => some (assembleStep c (storedFields c fs) b f.name)) := by
    funext b i
    cases hi : fs.get? i with
    | none =>
      have hi2 : fs[i]? = none := by simpa using hi
      simp [iterStep, RValue.FieldName, hi2]
    | some f => simpa using iterStep_struct c n recFn fs hrec hn b i f hi
  unfold iter
  simp only [RValue.NumField, Option.bind_eq_bind, Option.some_bind]
  rw [hstep, range_foldlM_get, foldlM_some, assemble, storedFields_names, List.foldl_map]

theorem iterN_struct (c : wordCase) (n : Nat) (fs : List (Field Value))
    (h : nestingFields fs + 1 ≤ n) :
    iterN c n ⟨some (.struct fs), false⟩ = some (assemble c (storedFields c fs)) := by
  induction n generalizing fs with
  | zero => omega
  | succ n ih =>
    show iter c ⟨some (.struct fs), false⟩ (iterN c n) = _
    exact iter_struct c n (iterN c n) fs (fun gs hgs => ih gs hgs) (by omega)

/-- The result of `convert` on a struct with at least one declared field, for
any budget that covers the nesting of the input. -/
theorem convertN_struct (fuel : Nat) (c : wordCase) (fs : List (Field Value))
    (hne : fs ≠ []) (hfuel : nesting (.struct fs) ≤ fuel) :
    convertN fuel (some (.struct fs)) c
      = some (some (assemble c (storedFields c fs)), none) := by
  have hlen : fs.length ≠ 0 := by simpa using hne
  have h1 := iterN_struct c fuel fs (by simpa only [nesting] using hfuel)
  simp [convertN, ValueOf, RValue.Kind, Value.kind, RValue.NumField, hlen, h1]

theorem convert_struct (c : wordCase) (fs : List (Field Value)) (hne : fs ≠ []) :
    convert (some (.struct fs)) c = some (some (assemble c (storedFields c fs)), none) :=
  convertN_struct _ c fs hne (Nat.le_refl _)

/-- More budget than the nesting bound of the input changes nothing. -/
theorem convertN_stable (fuel : Nat) (s : Any) (c : wordCase) (h : anyNesting s ≤ fuel) :
    convertN fuel s c = convert s c := by
  unfold convert
  match s, h with
  | none, _ => rfl
  | some (.struct fs), h =>
    by_cases hne : fs = []
    · subst hne
      rfl
    · rw [convertN_struct fuel c fs hne h]
      exact (convertN_struct _ c fs hne (Nat.le_refl _)).symm
  | some (.bool _), _ => rfl
  | some (.int _), _ => rfl
  | some (.string _), _ => rfl
  | some (.nilSlice _), _ => rfl
  | some (.slice _ _), _ => rfl
  | some (.nilMap _ _), _ => rfl
  | some (.map _ _ _), _ => rfl
  | some (.nilPtr _), _ => rfl
  | some (.ptr _), _ => rfl
  | some .nilIface, _ => rfl
  | some (.iface _), _ => rfl

/-! ## Assignments to the map -/

theorem Map.get_set_self (a : Map) (k : String) (x : Out) :
    Map.get (Map.set a k x) k = some x := by
  induction a with
  | nil => simp [Map.set, Map.get]
  | cons e rest ih =>
    obtain ⟨k1, y⟩ := e
    by_cases h : k1 = k
    · simp [Map.set, Map.get, h]
    · simp [Map.set, Map.get, h, ih]

theorem Map.get_set_ne (a : Map) (k k1 : String) (x : Out) (h : k1 ≠ k) :
    Map.get (Map.set a k x) k1 = Map.get a k1 := by
  induction a with
  | nil => simp [Map.set, Map.get, Ne.symm h]
  | cons e rest ih =>
    obtain ⟨k2, y⟩ := e
    by_cases h2 : k2 = k
    · subst h2
      simp [Map.set, Map.get, Ne.symm h]
    · by_cases h3 : k2 = k1
      · subst h3
        simp [Map.set, Map.get, h2]
      · simp [Map.set, Map.get, h2, h3, ih]

theorem Map.mem_keys_set (a : Map) (k k1 : String) (x : Out) :
    k1 ∈ Map.keys (Map.set a k x) ↔ k1 = k ∨ k1 ∈ Map.keys a := by
  induction a with
  | nil => simp [Map.set, Map.keys]
  | cons e rest ih =>
    obtain ⟨k2, y⟩ := e
    by_cases h2 : k2 = k
    · subst h2
      simp [Map.set, Map.keys]
    · simp only [Map.keys] at ih
      simp only [Map.set, h2, if_false, Map.keys, List.map_cons, List.mem_cons, ih]
      tauto

theorem Map.set_of_not_mem (a : Map) (k : String) (x : Out) (h : k ∉ Map.keys a) :
    Map.set a k x = a ++ [(k, x)] := by
  induction a with
  | nil => simp [Map.set]
  | cons e rest ih =>
    obtain ⟨k2, y⟩ := e
    simp only [Map.keys, List.map_cons, List.mem_cons, not_or] at h
    have h2 : k2 ≠ k := fun h3 => h.1 h3.symm
    simp only [Map.set, h2, if_false, List.cons_append, List.cons.injEq, true_and]
    exact ih h.2

theorem Map.setAll_append (a : Map) (es fs : List (String × Out)) :
    Map.setAll a (es ++ fs) = Map.setAll (Map.setAll a es) fs := by
  simp [Map.setAll, List.foldl_append]

theorem Map.get_setAll_of_not_mem (es : List (String × Out)) (a : Map) (k : String)
    (h : ∀ e ∈ es, e.1 ≠ k) : Map.get (Map.setAll a es) k = Map.get a k := by
  induction es generalizing a with
  | nil => rfl
  | cons e rest ih =>
    have h1 : k ≠ e.1 := fun h2 => h e (List.mem_cons_self _ _) h2.symm
    have h3 := ih (Map.set a e.1 e.2) (fun e1 he1 => h e1 (List.mem_cons_of_mem _ he1))
    simp only [Map.setAll, List.foldl_cons] at h3 ⊢
    rw [h3, Map.get_set_ne _ _ _ _ h1]

theorem Map.get_setAll_last (es1 es2 : List (String × Out)) (a : Map) (k : String) (x : Out)
    (h : ∀ e ∈ es2, e.1 ≠ k) :
    Map.get (Map.setAll a (es1 ++ (k, x) :: es2)) k = some x := by
  rw [Map.setAll_append]
  show Map.get (Map.setAll (Map.set (Map.setAll a es1) k x) es2) k = some x
  rw [Map.get_setAll_of_not_mem es2 _ k h, Map.get_set_self]

theorem Map.mem_keys_setAll (es : List (String × Out)) (a : Map) (k : String) :
    k ∈ Map.keys (Map.setAll a es) ↔ k ∈ Map.keys a ∨ k ∈ es.map Prod.fst := by
  induction es generalizing a with
  | nil => simp [Map.setAll]
  | cons e rest ih =>
    have h3 := ih (Map.set a e.1 e.2)
    simp only [Map.setAll, List.foldl_cons] at h3 ⊢
    rw [h3, Map.mem_keys_set]
    simp only [List.map_cons, List.mem_cons]
    tauto

theorem Map.setAll_of_nodup (es : List (String × Out)) (a : Map)
    (hdisj : ∀ e ∈ es, e.1 ∉ Map.keys a) (hnd : (es.map Prod.fst).Nodup) :
    Map.setAll a es = a ++ es := by
  induction es generalizing a with
  | nil => simp [Map.setAll]
  | cons e rest ih =>
    simp only [List.map_cons, List.nodup_cons] at hnd
    have h1 : Map.set a e.1 e.2 = a ++ [e] :=
      Map.set_of_not_mem a e.1 e.2 (hdisj e (List.mem_cons_self _ _))
    have h3 := ih (a ++ [e]) (by
      intro e1 he1
      simp only [Map.keys, List.map_append, List.map_cons, List.map_nil, List.mem_append,
        List.mem_singleton, not_or]
      refine ⟨hdisj e1 (List.mem_cons_of_mem _ he1), ?_⟩
      intro h4
      exact hnd.1 (h4 ▸ List.mem_map_of_mem Prod.fst he1)) hnd.2
    simp only [Map.setAll, List.foldl_cons] at h3 ⊢
    rw [h1, h3]
    simp

/-! ## Well-formed field lists -/

theorem storedFields_eq_map (c : wordCase) (fs : List (Field Value)) :
    storedFields c fs
      = fs.map (fun f => (⟨f.name, f.exported, stored c f.value⟩ : Field Out)) := by
  induction fs with
  | nil => simp [storedFields]
  | cons f rest ih => simp [storedFields, ih]

theorem wellFormed_storedFields (c : wordCase) (fs : List (Field Value))
    (h : wellFormed fs) : wellFormed (storedFields c fs) := by
  unfold wellFormed at h ⊢
  rw [storedFields_eq_map, List.pairwise_map]
  exact h

theorem declaredOnce_symm {α : Type} : Symmetric (declaredOnce : Field α → Field α → Prop) := by
  intro f g h hname
  exact ⟨(h hname.symm).2, (h hname.symm).1⟩

theorem assembleStep_wf (c : wordCase) (tbl : List (Field Out)) (hwf : wellFormed tbl)
    (a : Map) (g : Field Out) (hg : g ∈ tbl) :
    assembleStep c tbl a g.name
      = if g.exported then Map.set a (convCase g.name c) g.value else a := by
  unfold assembleStep
  cases hfind : tbl.find? (fun x => x.name = g.name) with
  | none =>
    have := List.find?_eq_none.mp hfind g hg
    simp at this
  | some h =>
    have hmem : h ∈ tbl := List.mem_of_find?_eq_some hfind
    have hname : h.name = g.name := by simpa using List.find?_some hfind
    by_cases hEq : h = g
    · subst hEq
      rfl
    · have hd := List.Pairwise.forall declaredOnce_symm hwf hmem hg hEq hname
      simp [hd.1, hd.2]

theorem foldl_assembleStep_wf (c : wordCase) (tbl : List (Field Out)) (hwf : wellFormed tbl)
    (l : List (Field Out)) (hl : ∀ g ∈ l, g ∈ tbl) (a : Map) :
    l.foldl (fun b g => assembleStep c tbl b g.name) a
      = Map.setAll a ((exportedFields l).map (fun g => (convCase g.name c, g.value))) := by
  induction l generalizing a with
  | nil => rfl
  | cons g rest ih =>
    have h1 := assembleStep_wf c tbl hwf a g (hl g (List.mem_cons_self _ _))
    have h2 := fun b => ih (fun x hx => hl x (List.mem_cons_of_mem _ hx)) b
    rw [List.foldl_cons, h1, h2]
    cases hge : g.exported with
    | false => simp [exportedFields, List.filter_cons, hge]
    | true => simp [exportedFields, List.filter_cons, hge, Map.setAll]

theorem assemble_wf (c : wordCase) (fs : List (Field Value)) (hwf : wellFormed fs) :
    assemble c (storedFields c fs) = Map.setAll [] (entries c fs) := by
  unfold assemble
  rw [List.foldl_map, foldl_assembleStep_wf c _ (wellFormed_storedFields c fs hwf) _
    (fun _ h => h)]
  congr 1
  rw [storedFields_eq_map]
  simp [entries, exportedFields, List.filter_map, Function.comp_def]

/-- The result of `convert` on a well-formed struct with at least one declared
field: the loop makes one assignment per exported field. -/
theorem convert_wf (c : wordCase) (fs : List (Field Value)) (hne : fs ≠ [])
    (hwf : wellFormed fs) :
    convert (some (.struct fs)) c = some (some (Map.setAll [] (entries c fs)), none) := by
  rw [convert_struct c fs hne, assemble_wf c fs hwf]

theorem wellFormed_exported_names_nodup {α : Type} (fs : List (Field α)) (hwf : wellFormed fs) :
    ((exportedFields fs).map Field.name).Nodup := by
  unfold List.Nodup
  rw [List.pairwise_map]
  have h1 : (exportedFields fs).Pairwise declaredOnce :=
    List.Pairwise.sublist (List.filter_sublist fs) hwf
  refine List.Pairwise.imp_of_mem ?_ h1
  intro f g hf _ hd hname
  have hfe : f.exported = true := by
    simpa using (List.mem_filter.mp hf).2
  rw [(hd hname).1] at hfe
  cases hfe

theorem entries_keys (c : wordCase) (fs : List (Field Value)) :
    (entries c fs).map Prod.fst = (exportedFields fs).map (fun f => convCase f.name c) := by
  simp [entries, Function.comp_def]

theorem convCase_camel (i : String) : convCase i wordCase.camelCase = i := by
  simp [convCase]

theorem foldl_assembleStep_unexported (c : wordCase) (tbl : List (Field Out))
    (hall : ∀ g ∈ tbl, g.exported = false) (names : List String) (a : Map) :
    names.foldl (assembleStep c tbl) a = a := by
  induction names generalizing a with
  | nil => rfl
  | cons nm rest ih =>
    rw [List.foldl_cons, ih]
    unfold assembleStep
    cases hfind : tbl.find? (fun g => g.name = nm) with
    | none => rfl
    | some g => simp [hall g (List.mem_of_find?_eq_some hfind)]

/-! ## The snake-case transform writes no capital letter -/

theorem capital_bounds (c : Char) (h1 : 'A' ≤ c) (h2 : c ≤ 'Z') :
    65 ≤ c.toNat ∧ c.toNat ≤ 90 := by
  rw [Char.le_def] at h1 h2
  exact ⟨h1, h2⟩

theorem lowCaseLetter_not_capital (c : Char) (h1 : 'A' ≤ c) (h2 : c ≤ 'Z') :
    (decide ('A' ≤ Char.ofNat (c.toNat - 'A'.toNat + 'a'.toNat))
      && decide (Char.ofNat (c.toNat - 'A'.toNat + 'a'.toNat) ≤ 'Z')) = false := by
  obtain ⟨h3, h4⟩ := capital_bounds c h1 h2
  generalize c.toNat = n at h3 h4
  interval_cases n <;> decide

theorem convCaseStep_noCapital (buf : List Char) (c : Char)
    (h : buf.all (fun ch => !(decide ('A' ≤ ch) && decide (ch ≤ 'Z'))) = true) :
    (convCaseStep buf c).all (fun ch => !(decide ('A' ≤ ch) && decide (ch ≤ 'Z'))) = true := by
  unfold convCaseStep
  by_cases hc : (decide ('A' ≤ c) && decide (c ≤ 'Z')) = true
  · have hc2 : 'A' ≤ c ∧ c ≤ 'Z' := by simpa using hc
    have hl := lowCaseLetter_not_capital c hc2.1 hc2.2
    simp only [hc, if_true]
    by_cases hb : buf.length > 0
    · simp only [hb, if_true, List.all_append, h, Bool.true_and, List.all_cons, List.all_nil,
        Bool.and_true, hl, Bool.not_false]
      decide
    · simp only [hb, if_false, List.all_append, h, Bool.true_and, List.all_cons, List.all_nil,
        Bool.and_true, hl, Bool.not_false]
  · have hc3 : (decide ('A' ≤ c) && decide (c ≤ 'Z')) = false := by simpa using hc
    simp only [hc3, Bool.false_eq_true, if_false, List.all_append, h, Bool.true_and,
      List.all_cons, List.all_nil, Bool.and_true, Bool.not_false]

theorem foldl_convCaseStep_noCapital (cs buf : List Char)
    (h : buf.all (fun ch => !(decide ('A' ≤ ch) && decide (ch ≤ 'Z'))) = true) :
    (cs.foldl convCaseStep buf).all (fun ch => !(decide ('A' ≤ ch) && decide (ch ≤ 'Z')))
      = true := by
  induction cs generalizing buf with
  | nil => exact h
  | cons c rest ih => exact ih _ (convCaseStep_noCapital buf c h)

theorem convCase_snake_noCapital (i : String) :
    noCapital (convCase i wordCase.snakeCase) = true := by
  simp only [convCase, noCapital, reduceCtorEq, if_false]
  exact foldl_convCaseStep_noCapital i.data [] rfl

/-! ## Keys at every depth -/

theorem Map.keysAll_set (p : String → Bool) (a : Map) (k : String) (x : Out)
    (ha : Map.keysAll p a = true) (hk : p k = true) (hx : Out.keysAll p x = true) :
    Map.keysAll p (Map.set a k x) = true := by
  induction a with
  | nil => simp [Map.set, Map.keysAll, hk, hx]
  | cons e rest ih =>
    obtain ⟨k1, y⟩ := e
    simp only [Map.keysAll, Bool.and_eq_true] at ha
    by_cases h : k1 = k
    · simp [Map.set, h, Map.keysAll, hk, hx, ha.2]
    · simp [Map.set, h, Map.keysAll, ha.1.1, ha.1.2, ih ha.2]

theorem Out.keysAll_val (p : String → Bool) (v : Value) :
    Out.keysAll p (.val (some v)) = Value.boxedKeysAll p v := by
  cases v <;> rfl

mutual
theorem Value.renameKeys_fixed (p : String → Bool) (r : String → String)
    (hr : ∀ s, p s = true → r s = s) :
    ∀ v : Value, Value.keysAll p v = true → Value.renameKeys r v = v
  | .map k e es, h => by
    simp only [Value.keysAll] at h
    simp only [Value.renameKeys, Value.renameEntries_fixed p r hr es h]
  | .iface d, h => by
    simp only [Value.keysAll] at h
    simp only [Value.renameKeys, Value.renameKeys_fixed p r hr d h]
  | .bool _, _ => rfl
  | .int _, _ => rfl
  | .string _, _ => rfl
  | .nilSlice _, _ => rfl
  | .slice _ _, _ => rfl
  | .nilMap _ _, _ => rfl
  | .nilPtr _, _ => rfl
  | .ptr _, _ => rfl
  | .nilIface, _ => rfl
  | .struct _, _ => rfl
theorem Value.renameEntries_fixed (p : String → Bool) (r : String → String)
    (hr : ∀ s, p s = true → r s = s) :
    ∀ es : List (Value × Value), Value.entriesKeysAll p es = true →
      Value.renameEntries r es = es
  | [], _ => rfl
  | (k, v) :: rest, h => by
    simp only [Value.entriesKeysAll, Bool.and_eq_true] at h
    have hk : Value.renameKey r k = k := by
      cases k with
      | string s =>
        have h1 : p s = true := by simpa [Value.keyOk] using h.1.1
        simp [Value.renameKey, hr s h1]
      | _ => rfl
    simp only [Value.renameEntries, hk, Value.renameKeys_fixed p r hr v h.1.2,
      Value.renameEntries_fixed p r hr rest h.2]
end

theorem Out.renameKeys_val (p : String → Bool) (r : String → String)
    (hr : ∀ s, p s = true → r s = s) (v : Value) (h : Value.boxedKeysAll p v = true) :
    Out.renameKeys r (.val (some v)) = .val (some v) := by
  cases v with
  | map k e es =>
    simp only [Value.boxedKeysAll] at h
    simp only [Out.renameKeys, Value.renameEntries_fixed p r hr es h]
  | _ => rfl

theorem stored_cases (p : String → Bool) (x : Value) (h : passesMaps p x = true) :
    (∃ fs, (x = .struct fs ∨ x = .ptr (.struct fs)) ∧ passesMapsFields p fs = true
        ∧ ∀ c, stored c x = .sub (assemble c (storedFields c fs)))
      ∨ (∀ c, stored c x = .val none)
      ∨ ∃ v, (∀ c, stored c x = .val (some v)) ∧ Value.boxedKeysAll p v = true := by
  cases x with
  | struct fs =>
    exact Or.inl ⟨fs, Or.inl rfl, by simpa [passesMaps] using h, fun c => by simp [stored]⟩
  | ptr q =>
    cases q with
    | struct fs =>
      exact Or.inl ⟨fs, Or.inr rfl, by simpa [passesMaps] using h,
        fun c => by simp [stored]⟩
    | nilIface => exact Or.inr (Or.inl (fun c => by simp [stored]))
    | iface d =>
      exact Or.inr (Or.inr ⟨d, fun c => by simp [stored], by simpa [passesMaps] using h⟩)
    | map k e es =>
      exact Or.inr (Or.inr ⟨_, fun _ => rfl, by simpa [passesMaps] using h⟩)
    | _ => exact Or.inr (Or.inr ⟨_, fun _ => rfl, rfl⟩)
  | nilIface => exact Or.inr (Or.inl (fun c => by simp [stored]))
  | iface d =>
    exact Or.inr (Or.inr ⟨d, fun c => by simp [stored], by simpa [passesMaps] using h⟩)
  | map k e es =>
    exact Or.inr (Or.inr ⟨_, fun _ => rfl, by simpa [passesMaps] using h⟩)
  | _ => exact Or.inr (Or.inr ⟨_, fun _ => rfl, rfl⟩)

theorem passesMapsFields_spec (p : String → Bool) (fs : List (Field Value))
    (h : passesMapsFields p fs = true) (f : Field Value) (hf : f ∈ fs)
    (hfe : f.exported = true) : passesMaps p f.value = true := by
  induction fs with
  | nil => cases hf
  | cons g rest ih =>
    simp only [passesMapsFields, Bool.and_eq_true, Bool.or_eq_true] at h
    rcases List.mem_cons.mp hf with h1 | h1
    · subst h1
      rcases h.1 with h2 | h2
      · rw [hfe] at h2
        cases h2
      · exact h2
    · exact ih h.2 h1

theorem assemble_keysAll (p : String → Bool) (c : wordCase) (tbl : List (Field Out))
    (hp : ∀ nm, p (convCase nm c) = true)
    (htbl : ∀ g ∈ tbl, g.exported = true → Out.keysAll p g.value = true) :
    Map.keysAll p (assemble c tbl) = true := by
  have key : ∀ (names : List String) (a : Map), Map.keysAll p a = true →
      Map.keysAll p (names.foldl (assembleStep c tbl) a) = true := by
    intro names
    induction names with
    | nil => exact fun _ h => h
    | cons nm rest ih =>
      intro a ha
      apply ih
      unfold assembleStep
      cases hfind : tbl.find? (fun g => g.name = nm) with
      | none => exact ha
      | some g =>
        by_cases hge : g.exported = true
        · simpa [hge] using Map.keysAll_set p a _ _ ha (hp nm)
            (htbl g (List.mem_of_find?_eq_some hfind) hge)
        · simpa [hge] using ha
  exact key _ [] rfl

theorem stored_keysAll (p : String → Bool) (c : wordCase)
    (hp : ∀ nm, p (convCase nm c) = true) (n : Nat) :
    ∀ x : Value, nesting x ≤ n → passesMaps p x = true →
      Out.keysAll p (stored c x) = true := by
  induction n with
  | zero =>
    intro x hx hpm
    rcases stored_cases p x hpm with ⟨fs, hs, _, _⟩ | h | ⟨v, h, hv⟩
    · rcases hs with hs | hs <;> subst hs <;> simp [nesting] at hx
    · rw [h c]
      simp [Out.keysAll]
    · rw [h c, Out.keysAll_val]
      exact hv
  | succ n ih =>
    intro x hx hpm
    rcases stored_cases p x hpm with ⟨fs, hs, hfs, hst⟩ | h | ⟨v, h, hv⟩
    · have hn : nestingFields fs ≤ n := by
        rcases hs with hs | hs <;> subst hs <;> simp only [nesting] at hx <;> omega
      rw [hst c]
      simp only [Out.keysAll]
      apply assemble_keysAll p c _ hp
      intro g hg hge
      rw [storedFields_eq_map] at hg
      obtain ⟨f, hf, rfl⟩ := List.mem_map.mp hg
      exact ih f.value (Nat.le_trans (nesting_le_of_mem fs f hf) hn)
        (passesMapsFields_spec p fs hfs f hf hge)
    · rw [h c]
      simp [Out.keysAll]
    · rw [h c, Out.keysAll_val]
      exact hv

theorem assemble_snake_keysAll (fs : List (Field Value))
    (hpm : passesMaps noCapital (.struct fs) = true) :
    Map.keysAll noCapital (assemble wordCase.snakeCase (storedFields wordCase.snakeCase fs))
      = true := by
  have h := stored_keysAll noCapital wordCase.snakeCase convCase_snake_noCapital
    (nesting (.struct fs)) (.struct fs) (Nat.le_refl _) hpm
  simpa [stored, Out.keysAll] using h

theorem assemble_keys_all (p : String → Bool) (c : wordCase) (tbl : List (Field Out))
    (hp : ∀ nm, p (convCase nm c) = true) :
    ∀ k ∈ Map.keys (assemble c tbl), p k = true := by
  have key : ∀ (names : List String) (a : Map), (∀ k ∈ Map.keys a, p k = true) →
      ∀ k ∈ Map.keys (names.foldl (assembleStep c tbl) a), p k = true := by
    intro names
    induction names with
    | nil => exact fun _ h => h
    | cons nm rest ih =>
      intro a ha
      apply ih
      unfold assembleStep
      cases hfind : tbl.find? (fun g => g.name = nm) with
      | none => exact ha
      | some g =>
        by_cases hge : g.exported = true
        · simp only [hge, if_true]
          intro k hk
          rcases (Map.mem_keys_set a _ k _).mp hk with h1 | h1
          · rw [h1]
            exact hp nm
          · exact ha k h1
        · simpa [hge] using ha
  exact key _ [] (by simp [Map.keys])

/-! ## Values at the end of a field path -/

theorem entries_append (c : wordCase) (pre post : List (Field Value)) :
    entries c (pre ++ post) = entries c pre ++ entries c post := by
  simp [entries, exportedFields]

theorem get_assemble_last (c : wordCase) (pre post : List (Field Value)) (f : Field Value)
    (hwf : wellFormed (pre ++ f :: post)) (hfe : f.exported = true)
    (hlast : ∀ g ∈ post, g.exported = true → convCase g.name c ≠ convCase f.name c) :
    Map.get (assemble c (storedFields c (pre ++ f :: post))) (convCase f.name c)
      = some (stored c f.value) := by
  rw [assemble_wf c _ hwf, entries_append]
  have h1 : entries c (f :: post) = (convCase f.name c, stored c f.value) :: entries c post := by
    simp [entries, exportedFields, List.filter_cons, hfe]
  rw [h1]
  apply Map.get_setAll_last
  intro e he
  simp only [entries, exportedFields, List.mem_map, List.mem_filter] at he
  obtain ⟨g, ⟨hg, hge⟩, rfl⟩ := he
  exact hlast g hg hge

theorem atPath_of_reaches (c : wordCase) (fs : List (Field Value)) (path : List String)
    (x : Value) (h : Reaches c fs path x) :
    Out.atPath (.sub (assemble c (storedFields c fs))) (path.map (fun nm => convCase nm c))
      = some (stored c x) := by
  induction h with
  | here pre f post hwf hfe hlast =>
    simp [Out.atPath, get_assemble_last c pre post f hwf hfe hlast]
  | into pre f post gs path x hwf hfe hlast hval _ ih =>
    have h1 : stored c f.value = .sub (assemble c (storedFields c gs)) := by
      rcases hval with hval | hval <;> rw [hval] <;> simp [stored]
    simp only [List.map_cons, Out.atPath, get_assemble_last c pre post f hwf hfe hlast, h1]
    exact ih

/-! ## Keys of the assembled map -/

theorem Map.keys_set_of_mem (a : Map) (k : String) (x : Out) (h : k ∈ Map.keys a) :
    Map.keys (Map.set a k x) = Map.keys a := by
  induction a with
  | nil => simp [Map.keys] at h
  | cons e rest ih =>
    obtain ⟨k1, y⟩ := e
    by_cases h1 : k1 = k
    · simp [Map.set, Map.keys, h1]
    · have h2 : k ∈ Map.keys rest := by
        simp only [Map.keys, List.map_cons, List.mem_cons] at h
        rcases h with h3 | h3
        · exact absurd h3.symm h1
        · exact h3
      have h4 := ih h2
      simp only [Map.keys] at h4
      simp [Map.set, Map.keys, h1, h4]

theorem Map.keys_set_nodup (a : Map) (k : String) (x : Out) (h : (Map.keys a).Nodup) :
    (Map.keys (Map.set a k x)).Nodup := by
  by_cases hk : k ∈ Map.keys a
  · rw [Map.keys_set_of_mem a k x hk]
    exact h
  · rw [Map.set_of_not_mem a k x hk]
    simp only [Map.keys, List.map_append, List.map_cons, List.map_nil]
    exact List.Nodup.append h (List.nodup_singleton k) (by
      intro z hz hz2
      rw [List.mem_singleton.mp hz2] at hz
      exact hk hz)

theorem Map.keys_setAll_nodup (es : List (String × Out)) (a : Map) (h : (Map.keys a).Nodup) :
    (Map.keys (Map.setAll a es)).Nodup := by
  induction es generalizing a with
  | nil => exact h
  | cons e rest ih => exact ih _ (Map.keys_set_nodup a e.1 e.2 h)

/-- The keys of the map that `convert` returns for a well-formed struct with
at least one declared field, in either case mode. -/
theorem keys_of_convert (c : wordCase) (fs : List (Field Value)) (hne : fs ≠ [])
    (hwf : wellFormed fs) :
    ∃ m, convert (some (.struct fs)) c = some (some m, none)
      ∧ (∀ k, k ∈ Map.keys m ↔ ∃ f ∈ fs, f.exported = true ∧ convCase f.name c = k)
      ∧ (Map.keys m).Nodup
      ∧ (Map.keys m).length
          = ((exportedFields fs).map (fun f => convCase f.name c)).dedup.length
      ∧ (Map.keys m).length ≤ (exportedFields fs).length
      ∧ (((exportedFields fs).map (fun f => convCase f.name c)).Nodup →
          Map.keys m = (exportedFields fs).map (fun f => convCase f.name c)
            ∧ (Map.keys m).length = (exportedFields fs).length) := by
  have hmem : ∀ k, k ∈ Map.keys (Map.setAll [] (entries c fs))
      ↔ k ∈ (exportedFields fs).map (fun f => convCase f.name c) := by
    intro k
    rw [Map.mem_keys_setAll, entries_keys]
    simp [Map.keys]
  have hnd : (Map.keys (Map.setAll [] (entries c fs))).Nodup :=
    Map.keys_setAll_nodup _ [] (by simp [Map.keys])
  have hlen : (Map.keys (Map.setAll [] (entries c fs))).length
      = ((exportedFields fs).map (fun f => convCase f.name c)).dedup.length := by
    apply List.Perm.length_eq
    rw [List.perm_ext_iff_of_nodup hnd (List.nodup_dedup _)]
    intro k
    rw [hmem, List.mem_dedup]
  refine ⟨_, convert_wf c fs hne hwf, ?_, hnd, hlen, ?_, ?_⟩
  · intro k
    rw [hmem]
    simp [exportedFields, List.mem_filter, and_assoc]
  · rw [hlen]
    have h1 := List.Sublist.length_le
      (List.dedup_sublist ((exportedFields fs).map (fun f => convCase f.name c)))
    simpa using h1
  · intro hnd2
    have h1 : Map.setAll [] (entries c fs) = entries c fs := by
      rw [Map.setAll_of_nodup _ [] (by simp [Map.keys]) (by rw [entries_keys]; exact hnd2)]
      simp
    have h2 : Map.keys (entries c fs) = (exportedFields fs).map (fun f => convCase f.name c) :=
      entries_keys c fs
    rw [h1, h2, List.length_map]
    exact ⟨rfl, rfl⟩

/-! ## The claims -/

/-- C1: for every input whose top-level kind is not struct (the nil interface,
a string, a number, a slice, a pointer to a struct, ...), `Convert` and
`ConvertSnakeCase` both return the nil map together with `ErrNotStruct`. -/
theorem not_struct_error (s : Any) (h : (ValueOf s).Kind ≠ Kind.Struct) :
    Convert s = some (none, some Error.ErrNotStruct)
      ∧ ConvertSnakeCase s = some (none, some Error.ErrNotStruct) := by
  simp [Convert, ConvertSnakeCase, convert, convertN, h]

theorem not_struct_error_witness :
    (ValueOf (some (.ptr (.struct [⟨"Field", true, .string "field"⟩])))).Kind ≠ Kind.Struct
      ∧ Convert (some (.ptr (.struct [⟨"Field", true, .string "field"⟩])))
          = some (none, some Error.ErrNotStruct)
      ∧ ConvertSnakeCase (some (.ptr (.struct [⟨"Field", true, .string "field"⟩])))
          = some (none, some Error.ErrNotStruct) :=
  ⟨by decide, not_struct_error _ (by decide)⟩

/-- C2: for every struct value whose type declares zero fields, `Convert` and
`ConvertSnakeCase` both return the nil map together with `ErrEmptyStruct`. -/
theorem empty_struct_error (s : Any) (hk : (ValueOf s).Kind = Kind.Struct)
    (h0 : (ValueOf s).NumField = some 0) :
    Convert s = some (none, some Error.ErrEmptyStruct)
      ∧ ConvertSnakeCase s = some (none, some Error.ErrEmptyStruct) := by
  simp [Convert, ConvertSnakeCase, convert, convertN, hk, h0]

theorem empty_struct_error_witness :
    (ValueOf (some (.struct []))).Kind = Kind.Struct
      ∧ (ValueOf (some (.struct []))).NumField = some 0
      ∧ Convert (some (.struct [])) = some (none, some Error.ErrEmptyStruct)
      ∧ ConvertSnakeCase (some (.struct [])) = some (none, some Error.ErrEmptyStruct) :=
  ⟨by decide, by decide, empty_struct_error _ (by decide) (by decide)⟩

/-- C3: the emptiness check counts declared fields: for every struct that
declares at least one field and whose fields are all unexported, `Convert` and
`ConvertSnakeCase` return the nil error and an empty map that is not nil. -/
theorem all_unexported_empty_map (fs : List (Field Value)) (hne : fs ≠ [])
    (hall : ∀ f ∈ fs, f.exported = false) :
    Convert (some (.struct fs)) = some (some [], none)
      ∧ ConvertSnakeCase (some (.struct fs)) = some (some [], none) := by
  have htbl : ∀ c, ∀ g ∈ storedFields c fs, g.exported = false := by
    intro c g hg
    rw [storedFields_eq_map] at hg
    obtain ⟨f, hf, rfl⟩ := List.mem_map.mp hg
    exact hall f hf
  have hmap : ∀ c, assemble c (storedFields c fs) = [] := fun c =>
    foldl_assembleStep_unexported c _ (htbl c) _ []
  simp [Convert, ConvertSnakeCase, convert_struct _ fs hne, hmap]

theorem all_unexported_empty_map_witness :
    Convert (some (.struct [⟨"field", false, .string "field"⟩])) = some (some [], none)
      ∧ ConvertSnakeCase (some (.struct [⟨"field", false, .string "field"⟩]))
          = some (some [], none) :=
  all_unexported_empty_map [⟨"field", false, .string "field"⟩] (by simp) (by simp)

/-- C4: errors are decided at the top level only and never come with a map:
`convert` returns the nil map with `ErrNotStruct`, or the nil map with
`ErrEmptyStruct`, or a map that is not nil with the nil error; and for every
struct with at least one declared field it returns the third form, whatever
the fields hold. -/
theorem error_or_map (s : Any) (c : wordCase) :
    (convert s c = some (none, some Error.ErrNotStruct)
      ∨ convert s c = some (none, some Error.ErrEmptyStruct)
      ∨ ∃ m, convert s c = some (some m, none))
    ∧ (∀ fs, s = some (.struct fs) → fs ≠ [] → ∃ m, convert s c = some (some m, none)) := by
  refine ⟨?_, ?_⟩
  · match s with
    | none => exact Or.inl rfl
    | some (.struct fs) =>
      by_cases hne : fs = []
      · subst hne
        exact Or.inr (Or.inl rfl)
      · exact Or.inr (Or.inr ⟨_, convert_struct c fs hne⟩)
    | some (.bool _) => exact Or.inl rfl
    | some (.int _) => exact Or.inl rfl
    | some (.string _) => exact Or.inl rfl
    | some (.nilSlice _) => exact Or.inl rfl
    | some (.slice _ _) => exact Or.inl rfl
    | some (.nilMap _ _) => exact Or.inl rfl
    | some (.map _ _ _) => exact Or.inl rfl
    | some (.nilPtr _) => exact Or.inl rfl
    | some (.ptr _) => exact Or.inl rfl
    | some .nilIface => exact Or.inl rfl
    | some (.iface _) => exact Or.inl rfl
  · intro fs hs hne
    subst hs
    exact ⟨_, convert_struct c fs hne⟩

theorem error_or_map_witness :
    ∃ m, convert (some (.struct [⟨"Inner", true, .struct []⟩, ⟨"Ptr", true, .nilPtr .int⟩,
        ⟨"Deep", true, .ptr (.struct [⟨"hidden", false, .struct []⟩])⟩]))
      wordCase.snakeCase = some (some m, none) :=
  (error_or_map _ wordCase.snakeCase).2 _ rfl (by simp)

/-- C5: for every struct with at least one declared field (the field list being
one that Go accepts), the keys of the map returned by `Convert` are exactly the
names of the exported fields, used verbatim, and no name of an unexported field
is a key. -/
theorem convert_keys_are_exported_names (fs : List (Field Value)) (hne : fs ≠ [])
    (hwf : wellFormed fs) :
    ∃ m, Convert (some (.struct fs)) = some (some m, none)
      ∧ (∀ k, k ∈ Map.keys m ↔ ∃ f ∈ fs, f.exported = true ∧ f.name = k)
      ∧ (∀ f ∈ fs, f.exported = false → f.name ∉ Map.keys m) := by
  have hkeys : ∀ k, k ∈ Map.keys (Map.setAll [] (entries wordCase.camelCase fs))
      ↔ ∃ f ∈ fs, f.exported = true ∧ f.name = k := by
    intro k
    rw [Map.mem_keys_setAll, entries_keys]
    simp [Map.keys, convCase_camel, exportedFields, List.mem_filter, and_assoc]
  refine ⟨_, convert_wf wordCase.camelCase fs hne hwf, hkeys, ?_⟩
  intro f hf hfe hmem
  obtain ⟨g, hg, hge, hname⟩ := (hkeys f.name).mp hmem
  have hgf : g ≠ f := by
    intro h
    rw [h, hfe] at hge
    cases hge
  have hd := List.Pairwise.forall declaredOnce_symm hwf hg hf hgf hname
  rw [hd.1] at hge
  cases hge

theorem convert_keys_are_exported_names_witness :
    ∃ m, Convert (some (.struct [⟨"FieldOf", true, .string "field"⟩,
        ⟨"field", false, .int 1⟩])) = some (some m, none)
      ∧ (∀ k, k ∈ Map.keys m ↔ ∃ f ∈ [(⟨"FieldOf", true, .string "field"⟩ : Field Value),
          ⟨"field", false, .int 1⟩], f.exported = true ∧ f.name = k)
      ∧ (∀ f ∈ [(⟨"FieldOf", true, .string "field"⟩ : Field Value), ⟨"field", false, .int 1⟩],
          f.exported = false → f.name ∉ Map.keys m) :=
  convert_keys_are_exported_names _ (by simp) (by decide)

/-- C6, as stated, fails: the struct with the two exported fields `FieldOf` and
`Field_of` is accepted by Go and has two exported fields, but the map that
`ConvertSnakeCase` returns for it has the single key `field_of`. -/
theorem one_entry_per_field_counterexample :
    wellFormed [(⟨"FieldOf", true, .string "a"⟩ : Field Value), ⟨"Field_of", true, .string "b"⟩]
      ∧ ConvertSnakeCase (some (.struct [⟨"FieldOf", true, .string "a"⟩,
            ⟨"Field_of", true, .string "b"⟩]))
          = some (some [("field_of", .val (some (.string "b")))], none)
      ∧ (Map.keys [("field_of", .val (some (.string "b")))]).length = 1
      ∧ (exportedFields [(⟨"FieldOf", true, .string "a"⟩ : Field Value),
            ⟨"Field_of", true, .string "b"⟩]).length = 2 :=
  ⟨by decide, by rfl, by rfl, by rfl⟩

/-- C6, amended: for every struct with at least one declared field, the map of
`Convert` has exactly one entry per exported field, keyed by the field name.
The map of `ConvertSnakeCase` has exactly one entry per distinct snake-case
name of the exported fields: its key set is exactly the set of these names and
each key occurs once, so exported fields whose snake-case names coincide share
one entry, and the number of keys is the number of exported fields when their
snake-case names are pairwise distinct. Unexported fields produce no entry. -/
theorem one_entry_per_exported_field (fs : List (Field Value)) (hne : fs ≠ [])
    (hwf : wellFormed fs) :
    (∃ m, Convert (some (.struct fs)) = some (some m, none)
        ∧ Map.keys m = (exportedFields fs).map Field.name
        ∧ (Map.keys m).Nodup
        ∧ (Map.keys m).length = (exportedFields fs).length)
    ∧ (∃ m, ConvertSnakeCase (some (.struct fs)) = some (some m, none)
        ∧ (∀ k, k ∈ Map.keys m
            ↔ ∃ f ∈ fs, f.exported = true ∧ convCase f.name wordCase.snakeCase = k)
        ∧ (Map.keys m).Nodup
        ∧ (Map.keys m).length
            = ((exportedFields fs).map
                (fun f => convCase f.name wordCase.snakeCase)).dedup.length
        ∧ (Map.keys m).length ≤ (exportedFields fs).length
        ∧ (((exportedFields fs).map (fun f => convCase f.name wordCase.snakeCase)).Nodup →
            Map.keys m = (exportedFields fs).map (fun f => convCase f.name wordCase.snakeCase)
              ∧ (Map.keys m).length = (exportedFields fs).length)) := by
  refine ⟨?_, keys_of_convert wordCase.snakeCase fs hne hwf⟩
  obtain ⟨m, hm, _, hnd, _, _, hall⟩ := keys_of_convert wordCase.camelCase fs hne hwf
  have h3 := hall (by simpa [convCase_camel] using wellFormed_exported_names_nodup fs hwf)
  exact ⟨m, hm, by simpa [convCase_camel] using h3.1, hnd, h3.2⟩

theorem one_entry_per_exported_field_witness :
    (∃ m, Convert (some (.struct [⟨"FieldOf", true, .string "a"⟩, ⟨"name", false, .int 1⟩,
          ⟨"Field_of", true, .nilPtr .int⟩])) = some (some m, none)
        ∧ Map.keys m = (exportedFields [(⟨"FieldOf", true, .string "a"⟩ : Field Value),
            ⟨"name", false, .int 1⟩, ⟨"Field_of", true, .nilPtr .int⟩]).map Field.name
        ∧ (Map.keys m).Nodup
        ∧ (Map.keys m).length = (exportedFields [(⟨"FieldOf", true, .string "a"⟩ : Field Value),
            ⟨"name", false, .int 1⟩, ⟨"Field_of", true, .nilPtr .int⟩]).length)
    ∧ (∃ m, ConvertSnakeCase (some (.struct [⟨"FieldOf", true, .string "a"⟩,
          ⟨"name", false, .int 1⟩, ⟨"Field_of", true, .nilPtr .int⟩])) = some (some m, none)
        ∧ (∀ k, k ∈ Map.keys m
            ↔ ∃ f ∈ [(⟨"FieldOf", true, .string "a"⟩ : Field Value),
                ⟨"name", false, .int 1⟩, ⟨"Field_of", true, .nilPtr .int⟩],
              f.exported = true ∧ convCase f.name wordCase.snakeCase = k)
        ∧ (Map.keys m).Nodup
        ∧ (Map.keys m).length
            = ((exportedFields [(⟨"FieldOf", true, .string "a"⟩ : Field Value),
                ⟨"name", false, .int 1⟩, ⟨"Field_of", true, .nilPtr .int⟩]).map
                (fun f => convCase f.name wordCase.snakeCase)).dedup.length
        ∧ (Map.keys m).length ≤ (exportedFields [(⟨"FieldOf", true, .string "a"⟩ : Field Value),
            ⟨"name", false, .int 1⟩, ⟨"Field_of", true, .nilPtr .int⟩]).length
        ∧ (((exportedFields [(⟨"FieldOf", true, .string "a"⟩ : Field Value),
              ⟨"name", false, .int 1⟩, ⟨"Field_of", true, .nilPtr .int⟩]).map
                (fun f => convCase f.name wordCase.snakeCase)).Nodup →
            Map.keys m = (exportedFields [(⟨"FieldOf", true, .string "a"⟩ : Field Value),
                ⟨"name", false, .int 1⟩, ⟨"Field_of", true, .nilPtr .int⟩]).map
                  (fun f => convCase f.name wordCase.snakeCase)
              ∧ (Map.keys m).length
                = (exportedFields [(⟨"FieldOf", true, .string "a"⟩ : Field Value),
                    ⟨"name", false, .int 1⟩, ⟨"Field_of", true, .nilPtr .int⟩]).length)) :=
  one_entry_per_exported_field _ (by simp) (by decide)

/-- C7, as stated, fails twice. In the struct with the exported fields
`FieldOf struct{A int}` and `Field_of int`, the key of `FieldOf` under
`ConvertSnakeCase` is `field_of`, and the value stored under it is the int of
the later field `Field_of`, not the map of the nested struct. And in the struct
with the field `Inner` holding a struct whose field `Extra`, of the Go type
`Map`, holds the map with the key `X`, the nested map stored under `extra` by
`ConvertSnakeCase` keeps the key `X`, which is not snake-cased. -/
theorem nested_struct_counterexample :
    (wellFormed [(⟨"FieldOf", true, .struct [⟨"A", true, .int 1⟩]⟩ : Field Value),
        ⟨"Field_of", true, .int 2⟩]
      ∧ ConvertSnakeCase (some (.struct [⟨"FieldOf", true, .struct [⟨"A", true, .int 1⟩]⟩,
            ⟨"Field_of", true, .int 2⟩]))
          = some (some [("field_of", .val (some (.int 2)))], none)
      ∧ ConvertSnakeCase (some (.struct [⟨"A", true, .int 1⟩]))
          = some (some [("a", .val (some (.int 1)))], none)
      ∧ Map.get [("field_of", .val (some (.int 2)))] (convCase "FieldOf" wordCase.snakeCase)
          = some (.val (some (.int 2)))
      ∧ Out.val (some (.int 2)) ≠ Out.sub [("a", .val (some (.int 1)))])
    ∧ (ConvertSnakeCase (some (.struct [⟨"Inner", true, .struct [⟨"Extra", true,
            .map .string .iface [(.string "X", .iface (.int 1))]⟩]⟩]))
          = some (some [("inner", .sub [("extra",
              .val (some (.map .string .iface [(.string "X", .iface (.int 1))])))])], none)
      ∧ Map.keysAll noCapital [("inner", .sub [("extra",
              .val (some (.map .string .iface [(.string "X", .iface (.int 1))])))])] = false
      ∧ noCapital "X" = false) :=
  ⟨⟨by decide, by rfl, by rfl, by rfl, by simp⟩, by rfl, by decide, by decide⟩

theorem reaches_ne_nil (c : wordCase) (fs : List (Field Value)) (path : List String)
    (x : Value) (h : Reaches c fs path x) : fs ≠ [] := by
  cases h <;> simp

/-- C7, amended: for every exported field whose value is a struct, reached
through exported fields at any depth, and whose key is not assigned again by an
exported field declared later in the same struct, the value stored under that
field's key is the map that `iter` returns for the nested struct with the same
case mode, which is what `convert` returns for it when it declares a field.
Under `ConvertSnakeCase` the keys of that map, like the keys of the result, are
free of capital letters; and when every Go map that an exported field passes
through has only keys free of capital letters, every key of every nested map, at
every depth, is free of capital letters. -/
theorem nested_struct_converted (c : wordCase) (fs gs : List (Field Value))
    (path : List String) (h : Reaches c fs path (.struct gs)) :
    ∃ m sub, convert (some (.struct fs)) c = some (some m, none)
      ∧ iterN c (nesting (.struct gs)) ⟨some (.struct gs), false⟩ = some sub
      ∧ (gs ≠ [] → convert (some (.struct gs)) c = some (some sub, none))
      ∧ Out.atPath (.sub m) (path.map (fun nm => convCase nm c)) = some (.sub sub)
      ∧ (c = wordCase.snakeCase →
          (∀ k ∈ Map.keys m, noCapital k = true) ∧ (∀ k ∈ Map.keys sub, noCapital k = true))
      ∧ (c = wordCase.snakeCase → passesMaps noCapital (.struct fs) = true →
          Map.keysAll noCapital m = true) := by
  refine ⟨_, _, convert_struct c fs (reaches_ne_nil c fs path _ h),
    iterN_struct c _ gs (by simp [nesting]), fun hgs => convert_struct c gs hgs, ?_, ?_, ?_⟩
  · simpa [stored] using atPath_of_reaches c fs path _ h
  · intro hc
    subst hc
    exact ⟨assemble_keys_all noCapital _ _ convCase_snake_noCapital,
      assemble_keys_all noCapital _ _ convCase_snake_noCapital⟩
  · intro hc hpm
    subst hc
    exact assemble_snake_keysAll fs hpm

theorem nested_struct_converted_witness :
    ∃ m sub, convert (some (.struct [⟨"FieldOf", true,
          .ptr (.struct [⟨"InnerPart", true, .struct [⟨"SomeOf", true, .int 1⟩]⟩])⟩]))
        wordCase.snakeCase = some (some m, none)
      ∧ iterN wordCase.snakeCase (nesting (.struct [⟨"SomeOf", true, .int 1⟩]))
          ⟨some (.struct [⟨"SomeOf", true, .int 1⟩]), false⟩ = some sub
      ∧ ([(⟨"SomeOf", true, .int 1⟩ : Field Value)] ≠ [] →
          convert (some (.struct [⟨"SomeOf", true, .int 1⟩])) wordCase.snakeCase
            = some (some sub, none))
      ∧ Out.atPath (.sub m) (["FieldOf", "InnerPart"].map
          (fun nm => convCase nm wordCase.snakeCase)) = some (.sub sub)
      ∧ (wordCase.snakeCase = wordCase.snakeCase →
          (∀ k ∈ Map.keys m, noCapital k = true) ∧ (∀ k ∈ Map.keys sub, noCapital k = true))
      ∧ (wordCase.snakeCase = wordCase.snakeCase →
          passesMaps noCapital (.struct [⟨"FieldOf", true,
            .ptr (.struct [⟨"InnerPart", true, .struct [⟨"SomeOf", true, .int 1⟩]⟩])⟩])
            = true →
          Map.keysAll noCapital m = true) :=
  nested_struct_converted wordCase.snakeCase _ _ _
    (Reaches.into [] ⟨"FieldOf", true,
        .ptr (.struct [⟨"InnerPart", true, .struct [⟨"SomeOf", true, .int 1⟩]⟩])⟩ []
      [⟨"InnerPart", true, .struct [⟨"SomeOf", true, .int 1⟩]⟩] ["InnerPart"] _
      (by decide) rfl (by simp) (Or.inr rfl)
      (Reaches.here [] ⟨"InnerPart", true, .struct [⟨"SomeOf", true, .int 1⟩]⟩ []
        (by decide) rfl (by simp)))

/-- C8: a non-nil pointer to a struct is converted exactly like the struct
itself: for every struct `rs` and case mode, the record whose exported field
holds a non-nil pointer to `rs` and the record whose field holds `rs` directly
are converted to the same map, with the nil error. -/
theorem pointer_to_struct_like_struct (c : wordCase) (pre post rs : List (Field Value))
    (name : String) :
    ∃ m, convert (some (.struct (pre ++ ⟨name, true, .ptr (.struct rs)⟩ :: post))) c
          = some (some m, none)
      ∧ convert (some (.struct (pre ++ ⟨name, true, .struct rs⟩ :: post))) c
          = some (some m, none) := by
  refine ⟨_, convert_struct c _ (by simp), ?_⟩
  rw [convert_struct c _ (by simp)]
  simp [storedFields_eq_map, stored]

/-- C9, as stated, fails: in the struct with the exported fields `FieldOf *int`,
holding nil, and `Field_of int`, the key of `FieldOf` under `ConvertSnakeCase`
is `field_of`, and the value stored under it is the int of the later field, not
the nil pointer. -/
theorem nil_pointer_counterexample :
    wellFormed [(⟨"FieldOf", true, .nilPtr .int⟩ : Field Value), ⟨"Field_of", true, .int 2⟩]
      ∧ ConvertSnakeCase (some (.struct [⟨"FieldOf", true, .nilPtr .int⟩,
            ⟨"Field_of", true, .int 2⟩]))
          = some (some [("field_of", .val (some (.int 2)))], none)
      ∧ Map.get [("field_of", .val (some (.int 2)))] (convCase "FieldOf" wordCase.snakeCase)
          = some (.val (some (.int 2)))
      ∧ Out.val (some (.int 2)) ≠ Out.val (some (.nilPtr .int)) :=
  ⟨by decide, by rfl, by rfl, by simp⟩

/-- C9, amended: for every exported field holding a nil pointer, whatever its
pointee type, reached through exported fields at any depth, and whose key is
not assigned again by an exported field declared later in the same struct, the
value stored under its key is the field's own value, the nil pointer of the
declared pointer type: not the untyped nil and not a sub-map; `convert`
returns, with the nil error. -/
theorem nil_pointer_stored (c : wordCase) (fs : List (Field Value)) (path : List String)
    (t : GoType) (h : Reaches c fs path (.nilPtr t)) :
    ∃ m x, convert (some (.struct fs)) c = some (some m, none)
      ∧ Out.atPath (.sub m) (path.map (fun nm => convCase nm c)) = some x
      ∧ x = .val (some (.nilPtr t))
      ∧ x ≠ .val none
      ∧ ∀ sub, x ≠ .sub sub := by
  refine ⟨_, _, convert_struct c fs (reaches_ne_nil c fs path _ h),
    atPath_of_reaches c fs path _ h, by simp [stored], by simp [stored], by simp [stored]⟩

theorem nil_pointer_stored_witness :
    ∃ m x, convert (some (.struct [⟨"Field", true,
          .ptr (.struct [⟨"Str", true, .nilPtr .int⟩])⟩])) wordCase.camelCase
        = some (some m, none)
      ∧ Out.atPath (.sub m) (["Field", "Str"].map (fun nm => convCase nm wordCase.camelCase))
          = some x
      ∧ x = .val (some (.nilPtr .int))
      ∧ x ≠ .val none
      ∧ ∀ sub, x ≠ .sub sub :=
  nil_pointer_stored wordCase.camelCase _ _ _
    (Reaches.into [] ⟨"Field", true, .ptr (.struct [⟨"Str", true, .nilPtr .int⟩])⟩ []
      [⟨"Str", true, .nilPtr .int⟩] ["Str"] _ (by decide) rfl (by simp) (Or.inr rfl)
      (Reaches.here [] ⟨"Str", true, .nilPtr .int⟩ [] (by decide) rfl (by simp)))

/-- C10, as stated, fails: in the struct with the exported fields
`FieldOf *int`, pointing to 1, and `Field_of string`, the key of `FieldOf`
under `ConvertSnakeCase` is `field_of`, and the value stored under it is the
string of the later field, not the int 1. -/
theorem pointer_deref_counterexample :
    wellFormed [(⟨"FieldOf", true, .ptr (.int 1)⟩ : Field Value),
        ⟨"Field_of", true, .string "x"⟩]
      ∧ ConvertSnakeCase (some (.struct [⟨"FieldOf", true, .ptr (.int 1)⟩,
            ⟨"Field_of", true, .string "x"⟩]))
          = some (some [("field_of", .val (some (.string "x")))], none)
      ∧ Map.get [("field_of", .val (some (.string "x")))]
            (convCase "FieldOf" wordCase.snakeCase)
          = some (.val (some (.string "x")))
      ∧ Out.val (some (.string "x")) ≠ Out.val (some (.int 1)) :=
  ⟨by decide, by rfl, by rfl, by simp⟩

theorem ne_ptr_self (p : Value) : p ≠ .ptr p := by
  intro h
  have h1 := congrArg sizeOf h
  simp at h1

theorem ne_ptr_iface_self (d : Value) : d ≠ .ptr (.iface d) := by
  intro h
  have h1 := congrArg sizeOf h
  simp at h1
  omega

/-- C10, amended: for every exported field holding a non-nil pointer to a value
that is not a struct, reached through exported fields at any depth, and whose
key is not assigned again by an exported field declared later in the same
struct, the value stored under its key is the pointee boxed as `interface{}`
(the pointee itself unless it is of interface type), not the pointer. -/
theorem pointer_deref_stored (c : wordCase) (fs : List (Field Value)) (path : List String)
    (p : Value) (h : Reaches c fs path (.ptr p)) (hp : p.kind ≠ Kind.Struct) :
    ∃ m a, convert (some (.struct fs)) c = some (some m, none)
      ∧ RValue.Interface ⟨some p, false⟩ = some a
      ∧ Out.atPath (.sub m) (path.map (fun nm => convCase nm c)) = some (.val a)
      ∧ (p.kind ≠ Kind.Interface → a = some p)
      ∧ a ≠ some (.ptr p) := by
  have h1 := atPath_of_reaches c fs path _ h
  have h2 := convert_struct c fs (reaches_ne_nil c fs path _ h)
  cases p with
  | struct gs => simp [Value.kind] at hp
  | nilIface =>
    exact ⟨_, none, h2, rfl, by simpa [stored] using h1, by simp [Value.kind], by simp⟩
  | iface d =>
    refine ⟨_, some d, h2, rfl, by simpa [stored] using h1, by simp [Value.kind], ?_⟩
    intro h3
    exact ne_ptr_iface_self d (Option.some.inj h3)
  | bool b =>
    refine ⟨_, _, h2, rfl, by simpa [stored] using h1, fun _ => rfl, ?_⟩
    intro h3
    exact ne_ptr_self _ (Option.some.inj h3)
  | int n =>
    refine ⟨_, _, h2, rfl, by simpa [stored] using h1, fun _ => rfl, ?_⟩
    intro h3
    exact ne_ptr_self _ (Option.some.inj h3)
  | string n =>
    refine ⟨_, _, h2, rfl, by simpa [stored] using h1, fun _ => rfl, ?_⟩
    intro h3
    exact ne_ptr_self _ (Option.some.inj h3)
  | nilSlice t =>
    refine ⟨_, _, h2, rfl, by simpa [stored] using h1, fun _ => rfl, ?_⟩
    intro h3
    exact ne_ptr_self _ (Option.some.inj h3)
  | slice t xs =>
    refine ⟨_, _, h2, rfl, by simpa [stored] using h1, fun _ => rfl, ?_⟩
    intro h3
    exact ne_ptr_self _ (Option.some.inj h3)
  | nilMap k t =>
    refine ⟨_, _, h2, rfl, by simpa [stored] using h1, fun _ => rfl, ?_⟩
    intro h3
    exact ne_ptr_self _ (Option.some.inj h3)
  | map k t es =>
    refine ⟨_, _, h2, rfl, by simpa [stored] using h1, fun _ => rfl, ?_⟩
    intro h3
    exact ne_ptr_self _ (Option.some.inj h3)
  | nilPtr t =>
    refine ⟨_, _, h2, rfl, by simpa [stored] using h1, fun _ => rfl, ?_⟩
    intro h3
    exact ne_ptr_self _ (Option.some.inj h3)
  | ptr q =>
    refine ⟨_, _, h2, rfl, by simpa [stored] using h1, fun _ => rfl, ?_⟩
    intro h3
    exact ne_ptr_self _ (Option.some.inj h3)

theorem pointer_deref_stored_witness :
    (Value.int 1).kind ≠ Kind.Struct
      ∧ ∃ m a, convert (some (.struct [⟨"TestPtr", true, .ptr (.int 1)⟩,
            ⟨"Slice", true, .slice .string [.string "asf"]⟩])) wordCase.camelCase
          = some (some m, none)
        ∧ RValue.Interface ⟨some (.int 1), false⟩ = some a
        ∧ Out.atPath (.sub m) (["TestPtr"].map (fun nm => convCase nm wordCase.camelCase))
            = some (.val a)
        ∧ ((Value.int 1).kind ≠ Kind.Interface → a = some (.int 1))
        ∧ a ≠ some (.ptr (.int 1)) :=
  ⟨by decide, pointer_deref_stored wordCase.camelCase _ _ _
    (Reaches.here [] ⟨"TestPtr", true, .ptr (.int 1)⟩
      [⟨"Slice", true, .slice .string [.string "asf"]⟩] (by decide) rfl (by decide))
    (by decide)⟩

/-! ## The snake-case transform and its reference definition -/

theorem isUpper_iff (c : Char) :
    c.isUpper = (decide ('A' ≤ c) && decide (c ≤ 'Z')) := by
  simp only [Char.isUpper, Char.le_def, ge_iff_le]
  rfl

theorem lowCaseLetter_eq_toLower (c : Char) (h1 : 'A' ≤ c) (h2 : c ≤ 'Z') :
    Char.ofNat (c.toNat - 'A'.toNat + 'a'.toNat) = c.toLower := by
  obtain ⟨h3, h4⟩ := capital_bounds c h1 h2
  rw [← Char.ofNat_toNat c]
  generalize c.toNat = n at h3 h4
  interval_cases n <;> decide

theorem convCaseStep_eq_spec (buf : List Char) (pos : Nat) (c : Char)
    (h : buf.length > 0 ↔ pos > 0) :
    convCaseStep buf c
      = buf ++ (if c.isUpper then (if pos = 0 then [c.toLower] else ['_', c.toLower])
          else [c]) := by
  unfold convCaseStep
  rw [isUpper_iff]
  by_cases hc : (decide ('A' ≤ c) && decide (c ≤ 'Z')) = true
  · have hc2 : 'A' ≤ c ∧ c ≤ 'Z' := by simpa using hc
    simp only [hc, if_true, lowCaseLetter_eq_toLower c hc2.1 hc2.2]
    by_cases hpos : pos = 0
    · have hb : ¬ buf.length > 0 := by rw [h]; omega
      simp [hpos, hb]
    · have hb : buf.length > 0 := by rw [h]; omega
      simp [hpos, hb]
  · simp [hc]

theorem convCaseStep_length_pos (buf : List Char) (c : Char) :
    (convCaseStep buf c).length > 0 := by
  unfold convCaseStep
  by_cases hc : (decide ('A' ≤ c) && decide (c ≤ 'Z')) = true
  · simp only [hc, if_true, List.length_append, List.length_singleton]
    omega
  · simp [hc]

theorem foldl_convCaseStep_eq_spec (cs buf : List Char) (pos : Nat)
    (h : buf.length > 0 ↔ pos > 0) :
    cs.foldl convCaseStep buf = buf ++ snakeCaseSpec pos cs := by
  induction cs generalizing buf pos with
  | nil => simp [snakeCaseSpec]
  | cons c rest ih =>
    have h1 : (convCaseStep buf c).length > 0 ↔ pos + 1 > 0 :=
      ⟨fun _ => Nat.succ_pos pos, fun _ => convCaseStep_length_pos buf c⟩
    rw [List.foldl_cons, ih _ (pos + 1) h1, convCaseStep_eq_spec buf pos c h]
    simp [snakeCaseSpec]

theorem convCase_snake_eq_spec (i : String) :
    convCase i wordCase.snakeCase = String.mk (snakeCaseSpec 0 i.data) := by
  simp only [convCase, reduceCtorEq, if_false]
  rw [foldl_convCaseStep_eq_spec i.data [] 0 (by simp)]
  simp

theorem foldl_convCaseStep_nonempty_iff (cs : List Char) :
    (cs.foldl convCaseStep []).length > 0 ↔ cs.length > 0 := by
  rcases List.eq_nil_or_concat cs with h | ⟨pre, c, h⟩
  · subst h
    simp
  · subst h
    simp only [List.concat_eq_append, List.foldl_append, List.foldl_cons, List.foldl_nil,
      List.length_append, List.length_singleton]
    exact ⟨fun _ => by omega, fun _ => convCaseStep_length_pos _ c⟩


theorem snakeCaseSpec_of_noCapital (cs : List Char) (pos : Nat)
    (h : cs.all (fun ch => !(decide ('A' ≤ ch) && decide (ch ≤ 'Z'))) = true) :
    snakeCaseSpec pos cs = cs := by
  induction cs generalizing pos with
  | nil => rfl
  | cons c rest ih =>
    simp only [List.all_cons, Bool.and_eq_true] at h
    have hc : c.isUpper = false := by
      rw [isUpper_iff]
      cases hb : (decide ('A' ≤ c) && decide (c ≤ 'Z')) with
      | false => rfl
      | true =>
        have h1 := h.1
        rw [hb] at h1
        cases h1
    simp [snakeCaseSpec, hc, ih (pos + 1) h.2]

theorem convCase_snake_of_noCapital (i : String) (h : noCapital i = true) :
    convCase i wordCase.snakeCase = i := by
  rw [convCase_snake_eq_spec, snakeCaseSpec_of_noCapital i.data 0 h]

theorem snakeCaseSpec_length (cs : List Char) (pos : Nat) (hpos : pos > 0) :
    (snakeCaseSpec pos cs).length
      = cs.length + (cs.filter (fun ch => decide ('A' ≤ ch) && decide (ch ≤ 'Z'))).length := by
  induction cs generalizing pos with
  | nil => rfl
  | cons c rest ih =>
    have hp : pos ≠ 0 := by omega
    by_cases hc : (decide ('A' ≤ c) && decide (c ≤ 'Z')) = true
    · have hu : c.isUpper = true := by rw [isUpper_iff]; exact hc
      simp only [snakeCaseSpec, hu, if_true, hp, if_false, List.length_append,
        List.length_cons, List.length_nil, ih (pos + 1) (Nat.succ_pos pos),
        List.filter_cons, hc]
      omega
    · have hu : c.isUpper = false := by rw [isUpper_iff]; simpa using hc
      simp only [snakeCaseSpec, hu, Bool.false_eq_true, if_false, List.length_append,
        List.length_cons, List.length_nil, ih (pos + 1) (Nat.succ_pos pos),
        List.filter_cons, hc]
      omega

theorem snakeCaseSpec_zero_length (cs : List Char) :
    (snakeCaseSpec 0 cs).length
      = cs.length
        + (cs.tail.filter (fun ch => decide ('A' ≤ ch) && decide (ch ≤ 'Z'))).length := by
  cases cs with
  | nil => rfl
  | cons c rest =>
    have h1 := snakeCaseSpec_length rest 1 (by omega)
    by_cases hu : c.isUpper = true
    · simp only [snakeCaseSpec, hu, if_true, List.length_append, List.length_cons,
        List.length_nil, List.tail_cons, Nat.zero_add, h1]
      omega
    · simp only [snakeCaseSpec, hu, Bool.false_eq_true, if_false, List.length_append,
        List.length_cons, List.length_nil, List.tail_cons, Nat.zero_add, h1]
      omega

theorem toLower_toNat (c : Char) (h : c.isUpper = true) : c.toLower.toNat = c.toNat + 32 := by
  rw [isUpper_iff] at h
  have hc2 : 'A' ≤ c ∧ c ≤ 'Z' := by simpa using h
  obtain ⟨h3, h4⟩ := capital_bounds c hc2.1 hc2.2
  rw [← Char.ofNat_toNat c]
  generalize c.toNat = n at h3 h4
  interval_cases n <;> decide

theorem toLower_injective (c d : Char) (hc : c.isUpper = true) (hd : d.isUpper = true)
    (h : c.toLower = d.toLower) : c = d := by
  have h1 := toLower_toNat c hc
  have h2 := toLower_toNat d hd
  rw [h] at h1
  have h3 : c.toNat = d.toNat := by omega
  rw [← Char.ofNat_toNat c, ← Char.ofNat_toNat d, h3]

theorem snakeCaseSpec_cons_ne_nil (p : Nat) (y : Char) (ys : List Char) :
    snakeCaseSpec p (y :: ys) ≠ [] := by
  simp only [snakeCaseSpec]
  intro h
  have h1 := (List.append_eq_nil.mp h).1
  split_ifs at h1

theorem snakeCaseSpec_injective (xs : List Char) :
    ∀ (ys : List Char) (p q : Nat), p > 0 → q > 0 → '_' ∉ xs → '_' ∉ ys →
      snakeCaseSpec p xs = snakeCaseSpec q ys → xs = ys := by
  induction xs with
  | nil =>
    intro ys p q _ _ _ _ h
    cases ys with
    | nil => rfl
    | cons y ys' =>
      exact absurd h.symm (snakeCaseSpec_cons_ne_nil q y ys')
  | cons x xs' ih =>
    intro ys p q hp hq hx hy h
    have hp0 : p ≠ 0 := by omega
    have hq0 : q ≠ 0 := by omega
    cases ys with
    | nil =>
      exact absurd h (snakeCaseSpec_cons_ne_nil p x xs')
    | cons y ys' =>
      simp only [List.mem_cons, not_or] at hx hy
      by_cases hxu : x.isUpper = true <;> by_cases hyu : y.isUpper = true
      · simp only [snakeCaseSpec, hxu, hyu, if_true, hp0, hq0, if_false, List.cons_append,
          List.nil_append, List.cons.injEq, true_and] at h
        rw [toLower_injective x y hxu hyu h.1,
          ih ys' (p + 1) (q + 1) (Nat.succ_pos p) (Nat.succ_pos q) hx.2 hy.2 h.2]
      · exfalso
        simp only [snakeCaseSpec, hxu, hyu, if_true, hp0, if_false, List.cons_append,
          List.nil_append, List.cons.injEq, Bool.false_eq_true] at h
        exact hy.1 h.1
      · exfalso
        simp only [snakeCaseSpec, hxu, hyu, if_true, hq0, if_false, List.cons_append,
          List.nil_append, List.cons.injEq, Bool.false_eq_true] at h
        exact hx.1 h.1.symm
      · simp only [snakeCaseSpec, hxu, hyu, if_false, List.cons_append,
          List.nil_append, List.cons.injEq, Bool.false_eq_true] at h
        rw [h.1, ih ys' (p + 1) (q + 1) (Nat.succ_pos p) (Nat.succ_pos q) hx.2 hy.2 h.2]


/-! ## Renaming the keys -/

theorem Map.renameKeys_set (r : String → String) (a : Map) (k : String) (x : Out)
    (h : ∀ k1 ∈ Map.keys a, r k1 = r k → k1 = k) :
    Map.renameKeys r (Map.set a k x)
      = Map.set (Map.renameKeys r a) (r k) (Out.renameKeys r x) := by
  induction a with
  | nil => simp [Map.set, Map.renameKeys]
  | cons e rest ih =>
    obtain ⟨k1, y⟩ := e
    have hrest : ∀ k2 ∈ Map.keys rest, r k2 = r k → k2 = k := fun k2 hk2 =>
      h k2 (by simp only [Map.keys, List.map_cons, List.mem_cons]; exact Or.inr hk2)
    by_cases h1 : k1 = k
    · subst h1
      simp [Map.set, Map.renameKeys]
    · have h2 : r k1 ≠ r k := fun h3 =>
        h1 (h k1 (by simp [Map.keys]) h3)
      simp [Map.set, Map.renameKeys, h1, h2, ih hrest]

theorem siblingsInjective_spec (fs : List (Field Value)) (h : siblingsInjective fs = true)
    (f g : Field Value) (hf : f ∈ fs) (hg : g ∈ fs) (hfe : f.exported = true)
    (hge : g.exported = true)
    (hk : convCase f.name wordCase.snakeCase = convCase g.name wordCase.snakeCase) :
    f.name = g.name := by
  simp only [siblingsInjective, List.all_eq_true, decide_eq_true_eq, exportedFields,
    List.mem_filter] at h
  exact h f ⟨hf, hfe⟩ g ⟨hg, hge⟩ hk

theorem snakeInjectiveFields_spec (fs : List (Field Value))
    (h : snakeInjectiveFields fs = true) (f : Field Value) (hf : f ∈ fs)
    (hfe : f.exported = true) : snakeInjective f.value = true := by
  induction fs with
  | nil => cases hf
  | cons g rest ih =>
    simp only [snakeInjectiveFields, Bool.and_eq_true, Bool.or_eq_true,
      Bool.not_eq_true'] at h
    rcases List.mem_cons.mp hf with h1 | h1
    · subst h1
      rcases h.1 with h2 | h2
      · rw [hfe] at h2
        cases h2
      · exact h2
    · exact ih h.2 h1


theorem foldl_assembleStep_rename (fs : List (Field Value))
    (hinj : siblingsInjective fs = true)
    (hval : ∀ f ∈ fs, f.exported = true →
      stored wordCase.snakeCase f.value
        = Out.renameKeys (fun nm => convCase nm wordCase.snakeCase)
            (stored wordCase.camelCase f.value))
    (names : List String) (a : Map)
    (hkeys : ∀ k ∈ Map.keys a, ∃ g ∈ fs, g.exported = true ∧ g.name = k) :
    names.foldl (assembleStep wordCase.snakeCase (storedFields wordCase.snakeCase fs))
        (Map.renameKeys (fun nm => convCase nm wordCase.snakeCase) a)
      = Map.renameKeys (fun nm => convCase nm wordCase.snakeCase)
          (names.foldl (assembleStep wordCase.camelCase (storedFields wordCase.camelCase fs))
            a) := by
  induction names generalizing a with
  | nil => rfl
  | cons nm rest ih =>
    simp only [List.foldl_cons]
    unfold assembleStep
    rw [storedFields_find, storedFields_find]
    cases hfind : fs.find? (fun f => f.name = nm) with
    | none => exact ih a hkeys
    | some g =>
      have hg : g ∈ fs := List.mem_of_find?_eq_some hfind
      have hname : g.name = nm := by simpa using List.find?_some hfind
      by_cases hge : g.exported = true
      · simp only [Option.map_some', hge, if_true, convCase_camel]
        have h1 : ∀ k1 ∈ Map.keys a,
            (fun nm => convCase nm wordCase.snakeCase) k1
              = (fun nm => convCase nm wordCase.snakeCase) nm → k1 = nm := by
          intro k1 hk1 hr
          obtain ⟨h, hh, hhe, hhn⟩ := hkeys k1 hk1
          have := siblingsInjective_spec fs hinj h g hh hg hhe hge (by
            rw [hhn, hname]
            exact hr)
          rw [← hhn, this, hname]
        rw [hval g hg hge, ← Map.renameKeys_set _ a nm _ h1]
        apply ih
        intro k hk
        rcases (Map.mem_keys_set a nm k _).mp hk with h2 | h2
        · exact ⟨g, hg, hge, by rw [hname, h2]⟩
        · exact hkeys k h2
      · simp only [Option.map_some', hge, Bool.false_eq_true, if_false]
        exact ih a hkeys

theorem assemble_rename (fs : List (Field Value)) (hinj : siblingsInjective fs = true)
    (hval : ∀ f ∈ fs, f.exported = true →
      stored wordCase.snakeCase f.value
        = Out.renameKeys (fun nm => convCase nm wordCase.snakeCase)
            (stored wordCase.camelCase f.value)) :
    assemble wordCase.snakeCase (storedFields wordCase.snakeCase fs)
      = Map.renameKeys (fun nm => convCase nm wordCase.snakeCase)
          (assemble wordCase.camelCase (storedFields wordCase.camelCase fs)) := by
  unfold assemble
  rw [storedFields_names, storedFields_names]
  exact foldl_assembleStep_rename fs hinj hval _ [] (by simp [Map.keys])

theorem stored_rename (n : Nat) :
    ∀ x : Value, nesting x ≤ n → snakeInjective x = true →
      passesMaps noCapital x = true →
      stored wordCase.snakeCase x
        = Out.renameKeys (fun nm => convCase nm wordCase.snakeCase)
            (stored wordCase.camelCase x) := by
  have hr : ∀ s, noCapital s = true → (fun nm => convCase nm wordCase.snakeCase) s = s :=
    fun s hs => convCase_snake_of_noCapital s hs
  induction n with
  | zero =>
    intro x hx _ hpm
    rcases stored_cases noCapital x hpm with ⟨fs, hs, _, _⟩ | h | ⟨v, h, hv⟩
    · rcases hs with hs | hs <;> subst hs <;> simp [nesting] at hx
    · rw [h, h]
      simp [Out.renameKeys]
    · rw [h, h, Out.renameKeys_val noCapital _ hr v hv]
  | succ n ih =>
    intro x hx hinj hpm
    rcases stored_cases noCapital x hpm with ⟨fs, hs, hfs, hst⟩ | h | ⟨v, h, hv⟩
    · have hn : nestingFields fs ≤ n := by
        rcases hs with hs | hs <;> subst hs <;> simp only [nesting] at hx <;> omega
      have hinj2 : siblingsInjective fs = true ∧ snakeInjectiveFields fs = true := by
        rcases hs with hs | hs <;> subst hs <;>
          simpa only [snakeInjective, Bool.and_eq_true] using hinj
      rw [hst, hst]
      simp only [Out.renameKeys]
      congr 1
      apply assemble_rename fs hinj2.1
      intro f hf hfe
      exact ih f.value (Nat.le_trans (nesting_le_of_mem fs f hf) hn)
        (snakeInjectiveFields_spec fs hinj2.2 f hf hfe)
        (passesMapsFields_spec noCapital fs hfs f hf hfe)
    · rw [h, h]
      simp [Out.renameKeys]
    · rw [h, h, Out.renameKeys_val noCapital _ hr v hv]

theorem assemble_rename_deep (fs : List (Field Value))
    (hinj : snakeInjective (.struct fs) = true)
    (hpm : passesMaps noCapital (.struct fs) = true) :
    assemble wordCase.snakeCase (storedFields wordCase.snakeCase fs)
      = Map.renameKeys (fun nm => convCase nm wordCase.snakeCase)
          (assemble wordCase.camelCase (storedFields wordCase.camelCase fs)) := by
  have h := stored_rename (nesting (.struct fs)) (.struct fs) (Nat.le_refl _) hinj hpm
  simpa [stored, Out.renameKeys] using h

theorem convert_error_same (s : Any) :
    (ConvertSnakeCase s).map Prod.snd = (Convert s).map Prod.snd := by
  match s with
  | none => rfl
  | some (.struct fs) =>
    by_cases hne : fs = []
    · subst hne
      rfl
    · simp [ConvertSnakeCase, Convert, convert_struct _ fs hne]
  | some (.bool _) => rfl
  | some (.int _) => rfl
  | some (.string _) => rfl
  | some (.nilSlice _) => rfl
  | some (.slice _ _) => rfl
  | some (.nilMap _ _) => rfl
  | some (.map _ _ _) => rfl
  | some (.nilPtr _) => rfl
  | some (.ptr _) => rfl
  | some .nilIface => rfl
  | some (.iface _) => rfl


/-- C11, as stated, fails: in the struct with the exported fields
`FieldOf []string` and `Field_of int`, the key of `FieldOf` under
`ConvertSnakeCase` is `field_of`, and the value stored under it is the int of
the later field, not the slice. -/
theorem passthrough_counterexample :
    wellFormed [(⟨"FieldOf", true, .slice .string [.string "asf"]⟩ : Field Value),
        ⟨"Field_of", true, .int 2⟩]
      ∧ ConvertSnakeCase (some (.struct [⟨"FieldOf", true, .slice .string [.string "asf"]⟩,
            ⟨"Field_of", true, .int 2⟩]))
          = some (some [("field_of", .val (some (.int 2)))], none)
      ∧ Map.get [("field_of", .val (some (.int 2)))] (convCase "FieldOf" wordCase.snakeCase)
          = some (.val (some (.int 2)))
      ∧ Out.val (some (.int 2)) ≠ Out.val (some (.slice .string [.string "asf"])) :=
  ⟨by decide, by rfl, by rfl, by simp⟩

/-- C11, amended: for every exported field whose kind is neither struct nor
pointer (also a slice of structs or an interface holding a struct), reached
through exported fields at any depth, and whose key is not assigned again by an
exported field declared later in the same struct, the value stored under its
key is the field's value boxed as `interface{}`: the value itself, or what it
holds when the field is of interface type; it is never a sub-map. -/
theorem passthrough_stored (c : wordCase) (fs : List (Field Value)) (path : List String)
    (x : Value) (h : Reaches c fs path x) (hs : x.kind ≠ Kind.Struct)
    (hp : x.kind ≠ Kind.Ptr) :
    ∃ m a, convert (some (.struct fs)) c = some (some m, none)
      ∧ RValue.Interface ⟨some x, false⟩ = some a
      ∧ Out.atPath (.sub m) (path.map (fun nm => convCase nm c)) = some (.val a)
      ∧ (x.kind ≠ Kind.Interface → a = some x)
      ∧ (∀ d, x = .iface d → a = some d)
      ∧ ∀ sub, Out.val a ≠ .sub sub := by
  have h1 := atPath_of_reaches c fs path _ h
  have h2 := convert_struct c fs (reaches_ne_nil c fs path _ h)
  cases x with
  | struct gs => simp [Value.kind] at hs
  | ptr q => simp [Value.kind] at hp
  | nilPtr t => simp [Value.kind] at hp
  | nilIface =>
    exact ⟨_, none, h2, rfl, by simpa [stored] using h1, by simp [Value.kind], by simp,
      by simp⟩
  | iface d =>
    exact ⟨_, some d, h2, rfl, by simpa [stored] using h1, by simp [Value.kind],
      by simp, by simp⟩
  | bool b =>
    exact ⟨_, _, h2, rfl, by simpa [stored] using h1, fun _ => rfl, by simp, by simp⟩
  | int n =>
    exact ⟨_, _, h2, rfl, by simpa [stored] using h1, fun _ => rfl, by simp, by simp⟩
  | string n =>
    exact ⟨_, _, h2, rfl, by simpa [stored] using h1, fun _ => rfl, by simp, by simp⟩
  | nilSlice t =>
    exact ⟨_, _, h2, rfl, by simpa [stored] using h1, fun _ => rfl, by simp, by simp⟩
  | slice t xs =>
    exact ⟨_, _, h2, rfl, by simpa [stored] using h1, fun _ => rfl, by simp, by simp⟩
  | nilMap k t =>
    exact ⟨_, _, h2, rfl, by simpa [stored] using h1, fun _ => rfl, by simp, by simp⟩
  | map k t es =>
    exact ⟨_, _, h2, rfl, by simpa [stored] using h1, fun _ => rfl, by simp, by simp⟩

theorem passthrough_stored_witness :
    (Value.slice (.struct [("Str", .string)]) [.struct [⟨"Str", true, .string "a"⟩]]).kind
        ≠ Kind.Struct
      ∧ (Value.slice (.struct [("Str", .string)]) [.struct [⟨"Str", true, .string "a"⟩]]).kind
        ≠ Kind.Ptr
      ∧ ∃ m a, convert (some (.struct [⟨"Items", true,
            .slice (.struct [("Str", .string)]) [.struct [⟨"Str", true, .string "a"⟩]]⟩,
            ⟨"Title", true, .iface (.struct [⟨"Str", true, .string "b"⟩])⟩]))
          wordCase.snakeCase = some (some m, none)
        ∧ RValue.Interface ⟨some (.slice (.struct [("Str", .string)])
            [.struct [⟨"Str", true, .string "a"⟩]]), false⟩ = some a
        ∧ Out.atPath (.sub m) (["Items"].map (fun nm => convCase nm wordCase.snakeCase))
            = some (.val a)
        ∧ ((Value.slice (.struct [("Str", .string)])
              [.struct [⟨"Str", true, .string "a"⟩]]).kind ≠ Kind.Interface →
            a = some (.slice (.struct [("Str", .string)])
              [.struct [⟨"Str", true, .string "a"⟩]]))
        ∧ (∀ d, Value.slice (.struct [("Str", .string)])
              [.struct [⟨"Str", true, .string "a"⟩]] = .iface d → a = some d)
        ∧ ∀ sub, Out.val a ≠ .sub sub :=
  ⟨by decide, by decide, passthrough_stored wordCase.snakeCase _ _ _
    (Reaches.here [] ⟨"Items", true,
        .slice (.struct [("Str", .string)]) [.struct [⟨"Str", true, .string "a"⟩]]⟩
      [⟨"Title", true, .iface (.struct [⟨"Str", true, .string "b"⟩])⟩]
      (by decide) rfl (by decide))
    (by decide) (by decide)⟩

/-- C12: in snake-case mode `convCase` equals the reference definition
`snakeCaseSpec` for every input string (an ASCII capital letter at the first
position gives its lowercase letter, at a later position `_` and its lowercase
letter, any other character is kept); and the buffer of the code is non-empty
exactly when at least one input character has been consumed, that is, when the
current character is not the first one. -/
theorem convCase_matches_reference (i : String) :
    convCase i wordCase.snakeCase = String.mk (snakeCaseSpec 0 i.data)
      ∧ ∀ n, ((i.data.take n).foldl convCaseStep []).length > 0
          ↔ (i.data.take n).length > 0 :=
  ⟨convCase_snake_eq_spec i, fun n => foldl_convCaseStep_nonempty_iff (i.data.take n)⟩

/-- C13: for every string without ASCII capital letter, `convCase` in
snake-case mode returns the string unchanged. -/
theorem convCase_fixes_lowercase (i : String) (h : noCapital i = true) :
    convCase i wordCase.snakeCase = i :=
  convCase_snake_of_noCapital i h

theorem convCase_fixes_lowercase_witness :
    noCapital "field_of_2é" = true
      ∧ convCase "field_of_2é" wordCase.snakeCase = "field_of_2é" :=
  ⟨by decide, convCase_fixes_lowercase "field_of_2é" (by decide)⟩


/-- C14: key collisions after the snake-case transform are resolved by last
write wins, with no error: `convCase` maps `FieldOf` and `Field_of` to
`field_of`, and for every struct with two exported fields `f`, declared
earlier, and `g`, declared later, whose snake-case keys coincide (no exported
field after `g` having that key), `ConvertSnakeCase` returns a map with the nil
error, and the value under the shared key is the one stored for `g`. -/
theorem collision_last_write_wins (pre mid post : List (Field Value)) (f g : Field Value)
    (hwf : wellFormed (pre ++ f :: (mid ++ g :: post)))
    (_hfe : f.exported = true) (hge : g.exported = true)
    (hk : convCase f.name wordCase.snakeCase = convCase g.name wordCase.snakeCase)
    (hlast : ∀ h ∈ post, h.exported = true →
      convCase h.name wordCase.snakeCase ≠ convCase g.name wordCase.snakeCase) :
    convCase "FieldOf" wordCase.snakeCase = "field_of"
      ∧ convCase "Field_of" wordCase.snakeCase = "field_of"
      ∧ ∃ m, ConvertSnakeCase (some (.struct (pre ++ f :: (mid ++ g :: post))))
            = some (some m, none)
          ∧ Map.get m (convCase f.name wordCase.snakeCase)
            = some (stored wordCase.snakeCase g.value) := by
  refine ⟨by decide, by decide, _, convert_struct wordCase.snakeCase _ (by simp), ?_⟩
  have h1 : pre ++ f :: (mid ++ g :: post) = (pre ++ f :: mid) ++ g :: post := by simp
  rw [hk, h1]
  exact get_assemble_last wordCase.snakeCase (pre ++ f :: mid) post g (h1 ▸ hwf) hge hlast

theorem collision_last_write_wins_witness :
    convCase "FieldOf" wordCase.snakeCase = "field_of"
      ∧ convCase "Field_of" wordCase.snakeCase = "field_of"
      ∧ ∃ m, ConvertSnakeCase (some (.struct ([] ++ ⟨"FieldOf", true, .string "a"⟩
              :: ([] ++ ⟨"Field_of", true, .ptr (.int 1)⟩ :: []))))
            = some (some m, none)
          ∧ Map.get m (convCase "FieldOf" wordCase.snakeCase)
            = some (stored wordCase.snakeCase (.ptr (.int 1))) :=
  collision_last_write_wins [] [] [] ⟨"FieldOf", true, .string "a"⟩
    ⟨"Field_of", true, .ptr (.int 1)⟩ (by decide) rfl rfl (by decide) (by simp)

/-- C15, as stated, fails: in the struct with the exported fields
`FieldOf struct{}` and `Field_of int`, the key of `FieldOf` under
`ConvertSnakeCase` is `field_of`, and the value stored under it is the int of
the later field, not an empty sub-map. -/
theorem nested_empty_struct_counterexample :
    wellFormed [(⟨"FieldOf", true, .struct []⟩ : Field Value), ⟨"Field_of", true, .int 2⟩]
      ∧ ConvertSnakeCase (some (.struct [⟨"FieldOf", true, .struct []⟩,
            ⟨"Field_of", true, .int 2⟩]))
          = some (some [("field_of", .val (some (.int 2)))], none)
      ∧ Map.get [("field_of", .val (some (.int 2)))] (convCase "FieldOf" wordCase.snakeCase)
          = some (.val (some (.int 2)))
      ∧ Out.val (some (.int 2)) ≠ Out.sub [] :=
  ⟨by decide, by rfl, by rfl, by simp⟩

/-- C15, amended: for every struct with an exported field whose value is a
struct declaring zero fields, or a non-nil pointer to one, reached through
exported fields at any depth, and whose key is not assigned again by an
exported field declared later in the same struct, `convert` returns a map with
the nil error in either case mode, and an empty sub-map is stored under that
field's key: `ErrEmptyStruct` is not returned and the field is not skipped. -/
theorem nested_empty_struct_stored (c : wordCase) (fs : List (Field Value))
    (path : List String) (x : Value) (h : Reaches c fs path x)
    (hx : x = .struct [] ∨ x = .ptr (.struct [])) :
    ∃ m, convert (some (.struct fs)) c = some (some m, none)
      ∧ Out.atPath (.sub m) (path.map (fun nm => convCase nm c)) = some (.sub []) := by
  refine ⟨_, convert_struct c fs (reaches_ne_nil c fs path _ h), ?_⟩
  rw [atPath_of_reaches c fs path _ h]
  rcases hx with hx | hx <;> subst hx <;> simp [stored, storedFields, assemble]

theorem nested_empty_struct_stored_witness :
    ((Value.ptr (.struct []) = .struct [] ∨ Value.ptr (.struct []) = .ptr (.struct [])))
      ∧ ∃ m, convert (some (.struct [⟨"Name", true, .string "abbr"⟩,
            ⟨"Inside", true, .ptr (.struct [])⟩])) wordCase.snakeCase = some (some m, none)
        ∧ Out.atPath (.sub m) (["Inside"].map (fun nm => convCase nm wordCase.snakeCase))
            = some (.sub []) :=
  ⟨Or.inr rfl, nested_empty_struct_stored wordCase.snakeCase _ _ _
    (Reaches.here [⟨"Name", true, .string "abbr"⟩] ⟨"Inside", true, .ptr (.struct [])⟩ []
      (by decide) rfl (by simp)) (Or.inr rfl)⟩

/-- C16: every ASCII capital letter after the first character gets its own
separator: for every string, the length in characters of the snake-case output
of `convCase` is the input length plus the number of capital letters at the
positions after the first; `ABCField` becomes `a_b_c_field`. -/
theorem convCase_length (i : String) :
    (convCase i wordCase.snakeCase).length = i.length + capitalsAfterFirst i
      ∧ convCase "ABCField" wordCase.snakeCase = "a_b_c_field" := by
  refine ⟨?_, by decide⟩
  rw [convCase_snake_eq_spec]
  exact snakeCaseSpec_zero_length i.data

/-- C17: for every input string the snake-case output of `convCase` contains no
ASCII capital letter, and the transform is idempotent. -/
theorem convCase_idempotent (i : String) :
    noCapital (convCase i wordCase.snakeCase) = true
      ∧ convCase (convCase i wordCase.snakeCase) wordCase.snakeCase
          = convCase i wordCase.snakeCase :=
  ⟨convCase_snake_noCapital i,
    convCase_snake_of_noCapital _ (convCase_snake_noCapital i)⟩

/-- C18: the snake-case transform is injective on the strings that start with
an ASCII capital letter and contain no `_`: equal outputs of `convCase` imply
equal inputs. -/
theorem convCase_injective_on_exported_names (s t : String)
    (hs : startsWithCapital s = true) (ht : startsWithCapital t = true)
    (hsu : '_' ∉ s.data) (htu : '_' ∉ t.data)
    (h : convCase s wordCase.snakeCase = convCase t wordCase.snakeCase) : s = t := by
  rw [convCase_snake_eq_spec, convCase_snake_eq_spec] at h
  replace h := congrArg String.data h
  simp only at h
  apply String.ext
  unfold startsWithCapital at hs ht
  cases hsd : s.data with
  | nil => simp [hsd] at hs
  | cons c cs =>
    cases htd : t.data with
    | nil => simp [htd] at ht
    | cons d ds =>
      rw [hsd] at hs hsu h
      rw [htd] at ht htu h
      have hcu : c.isUpper = true := by rw [isUpper_iff]; exact hs
      have hdu : d.isUpper = true := by rw [isUpper_iff]; exact ht
      simp only [List.mem_cons, not_or] at hsu htu
      simp only [snakeCaseSpec, hcu, hdu, if_true, List.cons_append, List.nil_append,
        List.cons.injEq, Nat.zero_add] at h
      rw [toLower_injective c d hcu hdu h.1,
        snakeCaseSpec_injective cs ds 1 1 (by omega) (by omega) hsu.2 htu.2 h.2]

theorem convCase_injective_on_exported_names_witness :
    startsWithCapital "FieldOf" = true ∧ '_' ∉ "FieldOf".data
      ∧ convCase "FieldOf" wordCase.snakeCase = convCase "FieldOf" wordCase.snakeCase
      ∧ "FieldOf" = "FieldOf" :=
  ⟨by decide, by decide, rfl,
    convCase_injective_on_exported_names "FieldOf" "FieldOf" (by decide) (by decide)
      (by decide) (by decide) rfl⟩


/-- C19, as stated, fails: the struct with the single exported field `A`, of
the Go type `Map`, holding the map with the key `X`, satisfies the injectivity
condition; `ConvertSnakeCase` returns the map with `a` holding the map with the
key `X`, while the map of `Convert` with every key at every depth replaced by
its snake-case image has `a` holding the map with the key `x`. -/
theorem snake_is_convert_renamed_counterexample :
    snakeInjective (.struct [⟨"A", true, .map .string .iface [(.string "X", .iface (.int 1))]⟩])
        = true
      ∧ ConvertSnakeCase (some (.struct [⟨"A", true,
            .map .string .iface [(.string "X", .iface (.int 1))]⟩]))
          = some (some [("a",
              .val (some (.map .string .iface [(.string "X", .iface (.int 1))])))], none)
      ∧ Convert (some (.struct [⟨"A", true,
            .map .string .iface [(.string "X", .iface (.int 1))]⟩]))
          = some (some [("A",
              .val (some (.map .string .iface [(.string "X", .iface (.int 1))])))], none)
      ∧ Map.renameKeys (fun nm => convCase nm wordCase.snakeCase)
            [("A", .val (some (.map .string .iface [(.string "X", .iface (.int 1))])))]
          = [("a", .val (some (.map .string .iface [(.string "x", .iface (.int 1))])))]
      ∧ ([("a", Out.val (some (.map .string .iface [(.string "X", .iface (.int 1))])))]
          : Map)
          ≠ [("a", .val (some (.map .string .iface [(.string "x", .iface (.int 1))])))] :=
  ⟨by decide, by rfl, by rfl, by rfl, by simp⟩

/-- C19, amended: `ConvertSnakeCase` is `Convert` followed by key renaming: for
every struct in which, at every nesting level, the snake-case transform is
injective on the names of the sibling exported fields and every Go map that an
exported field passes through has only keys free of capital letters, the result
of `ConvertSnakeCase` is the result of `Convert` with every key at every depth
replaced by its snake-case image and every value that is not a map left as it
is; and on every input the two entry points return the same error. -/
theorem snake_is_convert_renamed (fs : List (Field Value))
    (hinj : snakeInjective (.struct fs) = true) (hpm : passesMaps noCapital (.struct fs) = true) :
    ConvertSnakeCase (some (.struct fs))
        = (Convert (some (.struct fs))).map
            (renameRet (fun nm => convCase nm wordCase.snakeCase))
      ∧ (fs ≠ [] → ∃ m, Convert (some (.struct fs)) = some (some m, none)
          ∧ ConvertSnakeCase (some (.struct fs))
              = some (some (Map.renameKeys (fun nm => convCase nm wordCase.snakeCase) m),
                  none))
      ∧ ∀ s : Any, (ConvertSnakeCase s).map Prod.snd = (Convert s).map Prod.snd := by
  refine ⟨?_, ?_, convert_error_same⟩
  · by_cases hne : fs = []
    · subst hne
      rfl
    · simp [ConvertSnakeCase, Convert, convert_struct _ fs hne, renameRet,
        assemble_rename_deep fs hinj hpm]
  · intro hne
    refine ⟨_, convert_struct _ fs hne, ?_⟩
    simp [ConvertSnakeCase, convert_struct _ fs hne, assemble_rename_deep fs hinj hpm]

theorem snake_is_convert_renamed_witness :
    ConvertSnakeCase (some (.struct [⟨"BlackFox", true, .bool false⟩,
          ⟨"Inside", true, .struct [⟨"SomeOf", true, .int 24565434⟩,
            ⟨"MostName", true, .map .string .iface [(.string "x_y", .iface (.int 1))]⟩]⟩]))
        = (Convert (some (.struct [⟨"BlackFox", true, .bool false⟩,
            ⟨"Inside", true, .struct [⟨"SomeOf", true, .int 24565434⟩,
              ⟨"MostName", true,
                .map .string .iface [(.string "x_y", .iface (.int 1))]⟩]⟩]))).map
            (renameRet (fun nm => convCase nm wordCase.snakeCase))
      ∧ ([(⟨"BlackFox", true, .bool false⟩ : Field Value),
            ⟨"Inside", true, .struct [⟨"SomeOf", true, .int 24565434⟩,
              ⟨"MostName", true,
                .map .string .iface [(.string "x_y", .iface (.int 1))]⟩]⟩] ≠ [] →
          ∃ m, Convert (some (.struct [⟨"BlackFox", true, .bool false⟩,
              ⟨"Inside", true, .struct [⟨"SomeOf", true, .int 24565434⟩,
                ⟨"MostName", true,
                  .map .string .iface [(.string "x_y", .iface (.int 1))]⟩]⟩]))
                = some (some m, none)
          ∧ ConvertSnakeCase (some (.struct [⟨"BlackFox", true, .bool false⟩,
              ⟨"Inside", true, .struct [⟨"SomeOf", true, .int 24565434⟩,
                ⟨"MostName", true,
                  .map .string .iface [(.string "x_y", .iface (.int 1))]⟩]⟩]))
              = some (some (Map.renameKeys (fun nm => convCase nm wordCase.snakeCase) m),
                  none))
      ∧ ∀ s : Any, (ConvertSnakeCase s).map Prod.snd = (Convert s).map Prod.snd :=
  snake_is_convert_renamed _ (by decide) (by decide)

/-- C20, as stated, fails: in the struct with the exported fields
`FieldOf **int`, pointing to a pointer to 1, and `Field_of int`, the key of
`FieldOf` under `ConvertSnakeCase` is `field_of`, and the value stored under it
is the int of the later field, not the inner pointer. -/
theorem pointer_to_pointer_counterexample :
    wellFormed [(⟨"FieldOf", true, .ptr (.ptr (.int 1))⟩ : Field Value),
        ⟨"Field_of", true, .int 2⟩]
      ∧ ConvertSnakeCase (some (.struct [⟨"FieldOf", true, .ptr (.ptr (.int 1))⟩,
            ⟨"Field_of", true, .int 2⟩]))
          = some (some [("field_of", .val (some (.int 2)))], none)
      ∧ Map.get [("field_of", .val (some (.int 2)))] (convCase "FieldOf" wordCase.snakeCase)
          = some (.val (some (.int 2)))
      ∧ Out.val (some (.int 2)) ≠ Out.val (some (.ptr (.int 1))) :=
  ⟨by decide, by rfl, by rfl, by simp⟩

/-- C20, amended: pointers are unwrapped one level only: for every exported
field holding a non-nil pointer to a pointer (also a pointer to a pointer to a
struct), reached through exported fields at any depth, and whose key is not
assigned again by an exported field declared later in the same struct, the
stored value is the inner pointer itself, not a sub-map and not the innermost
value. -/
theorem pointer_to_pointer_stored (c : wordCase) (fs : List (Field Value))
    (path : List String) (p : Value) (h : Reaches c fs path (.ptr p))
    (hp : p.kind = Kind.Ptr) :
    ∃ m, convert (some (.struct fs)) c = some (some m, none)
      ∧ Out.atPath (.sub m) (path.map (fun nm => convCase nm c)) = some (.val (some p))
      ∧ (∀ sub, Out.val (some p) ≠ .sub sub)
      ∧ ∀ q, p = .ptr q → Out.val (some p) ≠ .val (some q) := by
  refine ⟨_, convert_struct c fs (reaches_ne_nil c fs path _ h), ?_, by simp, ?_⟩
  · rw [atPath_of_reaches c fs path _ h]
    cases p with
    | ptr q => simp [stored]
    | nilPtr t => simp [stored]
    | _ => simp [Value.kind] at hp
  · intro q hq h1
    subst hq
    simp only [Out.val.injEq, Option.some.injEq] at h1
    exact ne_ptr_self q h1.symm

theorem pointer_to_pointer_stored_witness :
    (Value.ptr (.struct [⟨"Str", true, .string "field"⟩])).kind = Kind.Ptr
      ∧ ∃ m, convert (some (.struct [⟨"Field", true,
            .ptr (.ptr (.struct [⟨"Str", true, .string "field"⟩]))⟩]))
          wordCase.camelCase = some (some m, none)
        ∧ Out.atPath (.sub m) (["Field"].map (fun nm => convCase nm wordCase.camelCase))
            = some (.val (some (.ptr (.struct [⟨"Str", true, .string "field"⟩]))))
        ∧ (∀ sub, Out.val (some (.ptr (.struct [⟨"Str", true, .string "field"⟩])))
            ≠ .sub sub)
        ∧ ∀ q, Value.ptr (.struct [⟨"Str", true, .string "field"⟩]) = .ptr q →
            Out.val (some (.ptr (.struct [⟨"Str", true, .string "field"⟩])))
              ≠ .val (some q) :=
  ⟨by decide, pointer_to_pointer_stored wordCase.camelCase _ _ _
    (Reaches.here [] ⟨"Field", true,
      .ptr (.ptr (.struct [⟨"Str", true, .string "field"⟩]))⟩ [] (by decide) rfl (by simp))
    (by decide)⟩


end Strumap
